import Mathlib

/-!
Verification of the page-walking scrape-and-dedupe pipeline of
`src/GOOD/scrape_v3.py`.

The Python source is shallowly embedded: pure helper functions
(`set_page_param`, `extract_item_id`, `clean_price`, `normalize_detail_url`,
`urljoin`) become Lean functions, the per-block extraction of `scrape_page`
becomes a function over an abstract `Block` (the results of the fixed
BeautifulSoup selectors for one `div.list_item_block`), and the `main` loop
becomes a fuel-indexed state machine over a `RunState` mirroring `main`'s
local variables.  HTTP traffic is abstracted by a `String → FetchOutcome`
oracle; everything downstream of the response is modelled faithfully.

The functions of Python's `urllib.parse` used by the source (`urlsplit`,
`urlparse`, `urlunsplit`, `urlunparse`, `parse_qs`, `parse_qsl`,
`urlencode(..., doseq=True)`, `quote_plus`, `unquote`, `urljoin`) are modelled
at the character level on `List Char`, following CPython's implementation:
`parse_qsl` drops blank values (`keep_blank_values=False` default), `parse_qs`
groups into an insertion-ordered dict, `urlencode` percent-encodes with
`quote_plus` over UTF-8 bytes with uppercase hex, `unquote` decodes maximal
`%XX` runs as UTF-8 with `errors='replace'`, and `urlsplit` performs the
scheme/netloc/fragment/query splits in CPython's order (WHATWG control-char
stripping of malformed inputs is not modelled).
-/

set_option autoImplicit false
set_option maxRecDepth 4000

namespace Scrape

/-! ### List-splitting primitives (`str.split`, `str.find`, `str.rfind`) -/

/-- Split at the first occurrence of `c`: `(before, some after)` if `c` occurs,
`(l, none)` otherwise.  Models `str.split(c, 1)` / `str.find(c)`. -/
def splitFirst (c : Char) : List Char → List Char × Option (List Char)
  | [] => ([], none)
  | x :: xs =>
    if x = c then ([], some xs)
    else
      let r := splitFirst c xs
      (x :: r.1, r.2)

/-- Split at the last occurrence of `c` (models `str.rfind(c)`). -/
def splitLast (c : Char) : List Char → Option (List Char × List Char)
  | [] => none
  | x :: xs =>
    match splitLast c xs with
    | some (a, b) => some (x :: a, b)
    | none => if x = c then some ([], xs) else none

/-- Split at every occurrence of `c` (models `str.split(c)`); never empty. -/
def splitAll (c : Char) : List Char → List (List Char)
  | [] => [[]]
  | x :: xs =>
    match splitAll c xs with
    | [] => [[]]
    | r :: rs => if x = c then [] :: r :: rs else (x :: r) :: rs

/-- Longest prefix whose characters all falsify `p`, plus the remainder
(which, if nonempty, starts with a `p`-character). -/
def spanNone (p : Char → Bool) : List Char → List Char × List Char
  | [] => ([], [])
  | x :: xs =>
    if p x then ([], x :: xs)
    else
      let r := spanNone p xs
      (x :: r.1, r.2)

theorem splitFirst_of_not_mem {c : Char} {l : List Char} (h : c ∉ l) :
    splitFirst c l = (l, none) := by
  induction l with
  | nil => rfl
  | cons x xs ih =>
    simp only [List.mem_cons, not_or] at h
    simp [splitFirst, Ne.symm h.1, ih h.2]

theorem splitFirst_append {c : Char} {a b : List Char} (h : c ∉ a) :
    splitFirst c (a ++ c :: b) = (a, some b) := by
  induction a with
  | nil => simp [splitFirst]
  | cons x xs ih =>
    simp only [List.mem_cons, not_or] at h
    simp [splitFirst, Ne.symm h.1, ih h.2]

theorem splitFirst_append_left {c : Char} {a : List Char} (b : List Char) (h : c ∉ a) :
    splitFirst c (a ++ b) = ((a ++ (splitFirst c b).1), (splitFirst c b).2) := by
  induction a with
  | nil => simp
  | cons x xs ih =>
    simp only [List.mem_cons, not_or] at h
    simp [splitFirst, Ne.symm h.1, ih h.2]

theorem splitFirst_eq_some {c : Char} {l a b : List Char}
    (h : splitFirst c l = (a, some b)) : l = a ++ c :: b ∧ c ∉ a := by
  induction l generalizing a with
  | nil =>
    rw [show splitFirst c [] = ([], none) from rfl] at h
    injection h with h1 h2
    simp at h2
  | cons x xs ih =>
    by_cases hx : x = c
    · subst hx
      rw [show splitFirst x (x :: xs) = ([], some xs) by simp [splitFirst]] at h
      injection h with h1 h2
      injection h2 with h2
      subst h1; subst h2
      simp
    · rw [show splitFirst c (x :: xs) = (x :: (splitFirst c xs).1, (splitFirst c xs).2) by
        simp [splitFirst, hx]] at h
      injection h with h1 h2
      have hxs : splitFirst c xs = ((splitFirst c xs).1, some b) := by rw [← h2]
      obtain ⟨e1, e2⟩ := ih hxs
      subst h1
      refine ⟨?_, ?_⟩
      · simp only [List.cons_append]
        exact congrArg (List.cons x) e1
      · simp only [List.mem_cons, not_or]
        exact ⟨fun hcx => hx hcx.symm, e2⟩

theorem splitFirst_eq_none {c : Char} {l a : List Char}
    (h : splitFirst c l = (a, none)) : a = l ∧ c ∉ l := by
  induction l generalizing a with
  | nil =>
    rw [show splitFirst c [] = ([], none) from rfl] at h
    injection h with h1 h2
    simp [← h1]
  | cons x xs ih =>
    by_cases hx : x = c
    · subst hx
      rw [show splitFirst x (x :: xs) = ([], some xs) by simp [splitFirst]] at h
      injection h with h1 h2
      simp at h2
    · rw [show splitFirst c (x :: xs) = (x :: (splitFirst c xs).1, (splitFirst c xs).2) by
        simp [splitFirst, hx]] at h
      injection h with h1 h2
      have hxs : splitFirst c xs = ((splitFirst c xs).1, none) := by rw [← h2]
      obtain ⟨e1, e2⟩ := ih hxs
      subst h1
      refine ⟨by rw [e1], ?_⟩
      simp only [List.mem_cons, not_or]
      exact ⟨fun hcx => hx hcx.symm, e2⟩

theorem splitLast_of_not_mem {c : Char} {l : List Char} (h : c ∉ l) :
    splitLast c l = none := by
  induction l with
  | nil => rfl
  | cons x xs ih =>
    simp only [List.mem_cons, not_or] at h
    simp [splitLast, ih h.2, Ne.symm h.1]

theorem splitLast_append {c : Char} {a b : List Char} (h : c ∉ b) :
    splitLast c (a ++ c :: b) = some (a, b) := by
  induction a with
  | nil => simp [splitLast, splitLast_of_not_mem h]
  | cons x xs ih => simp [splitLast, ih]

theorem splitAll_ne_nil (c : Char) (l : List Char) : splitAll c l ≠ [] := by
  cases l with
  | nil => simp [splitAll]
  | cons x xs =>
    simp only [splitAll]
    cases h : splitAll c xs with
    | nil => simp
    | cons r rs =>
      by_cases hx : x = c <;> simp [hx]

theorem splitAll_of_not_mem {c : Char} {l : List Char} (h : c ∉ l) :
    splitAll c l = [l] := by
  induction l with
  | nil => rfl
  | cons x xs ih =>
    simp only [List.mem_cons, not_or] at h
    simp [splitAll, ih h.2, Ne.symm h.1]

theorem splitAll_append {c : Char} {a t : List Char} (h : c ∉ a) :
    splitAll c (a ++ c :: t) = a :: splitAll c t := by
  induction a with
  | nil =>
    have hne := splitAll_ne_nil c t
    simp only [List.nil_append, splitAll]
    cases ht : splitAll c t with
    | nil => exact absurd ht hne
    | cons r rs => simp
  | cons x xs ih =>
    simp only [List.mem_cons, not_or] at h
    simp only [List.cons_append, splitAll, List.append_eq]
    rw [ih h.2]
    simp [Ne.symm h.1]

theorem spanNone_all {p : Char → Bool} {l : List Char} (h : ∀ x ∈ l, p x = false) :
    spanNone p l = (l, []) := by
  induction l with
  | nil => rfl
  | cons x xs ih =>
    have hx := h x (by simp)
    simp [spanNone, hx, ih (fun y hy => h y (by simp [hy]))]

theorem spanNone_append {p : Char → Bool} {a : List Char} {d : Char} (b : List Char)
    (ha : ∀ x ∈ a, p x = false) (hd : p d = true) :
    spanNone p (a ++ d :: b) = (a, d :: b) := by
  induction a with
  | nil => simp [spanNone, hd]
  | cons x xs ih =>
    have hx := ha x (by simp)
    simp [spanNone, hx, ih (fun y hy => ha y (by simp [hy]))]

end Scrape

namespace Scrape

/-! ### Percent-encoding: `urllib.parse.quote_plus` and `unquote`

`urlencode(..., doseq=True)` quotes keys and values with `quote_plus`
(`safe=''`): ASCII alphanumerics and `_.-~` kept, space becomes `+`, every
other character is UTF-8-encoded and percent-escaped with uppercase hex.
`parse_qsl` reverses this with `str.replace('+', ' ')` followed by
`unquote(..., errors='replace')`, which decodes each maximal `%XX` run as
UTF-8. -/

def hexDigitUpper (n : Nat) : Char :=
  if n < 10 then Char.ofNat (48 + n) else Char.ofNat (55 + n)

def isHexDigitCh (c : Char) : Bool :=
  c.isDigit || ('a' ≤ c && c ≤ 'f') || ('A' ≤ c && c ≤ 'F')

def hexVal (c : Char) : Nat :=
  if c.isDigit then c.toNat - 48
  else if 'a' ≤ c && c ≤ 'f' then c.toNat - 87
  else c.toNat - 55

def hexPairVal (h1 h2 : Char) : Nat := 16 * hexVal h1 + hexVal h2

/-- UTF-8 encoding of one code point. -/
def utf8Bytes (n : Nat) : List Nat :=
  if n < 0x80 then [n]
  else if n < 0x800 then [0xC0 + n / 64, 0x80 + n % 64]
  else if n < 0x10000 then [0xE0 + n / 4096, 0x80 + n / 64 % 64, 0x80 + n % 64]
  else [0xF0 + n / 0x40000, 0x80 + n / 4096 % 64, 0x80 + n / 64 % 64, 0x80 + n % 64]

def replChar : Char := Char.ofNat 0xFFFD

/-- One lead byte of a UTF-8 stream: characters emitted, plus the pending
state `(acc, needed, lo, hi)` for a multi-byte sequence, where the next byte
must lie in `[lo, hi)` (this encodes the overlong/surrogate restrictions on
the first continuation byte, as in CPython's UTF-8 decoder). -/
def u8Lead (b : Nat) : List Char × Option (Nat × Nat × Nat × Nat) :=
  if b < 0x80 then ([Char.ofNat b], none)
  else if b < 0xC2 then ([replChar], none)
  else if b < 0xE0 then ([], some (b - 0xC0, 1, 0x80, 0xC0))
  else if b < 0xF0 then
    ([], some (b - 0xE0, 2, if b = 0xE0 then 0xA0 else 0x80, if b = 0xED then 0xA0 else 0xC0))
  else if b < 0xF5 then
    ([], some (b - 0xF0, 3, if b = 0xF0 then 0x90 else 0x80, if b = 0xF4 then 0x90 else 0xC0))
  else ([replChar], none)

/-- Run the UTF-8 decoder with `errors='replace'`: an invalid or truncated
sequence yields one replacement character per maximal invalid subpart. -/
def u8Run : Option (Nat × Nat × Nat × Nat) → List Nat → List Char
  | none, [] => []
  | some _, [] => [replChar]
  | none, b :: bs => (u8Lead b).1 ++ u8Run (u8Lead b).2 bs
  | some (acc, need, lo, hi), b :: bs =>
    if lo ≤ b ∧ b < hi then
      if need = 1 then Char.ofNat (acc * 64 + (b - 0x80)) :: u8Run none bs
      else u8Run (some (acc * 64 + (b - 0x80), need - 1, 0x80, 0xC0)) bs
    else replChar :: ((u8Lead b).1 ++ u8Run (u8Lead b).2 bs)

/-- UTF-8 decoding with `errors='replace'`, as `unquote` applies to the byte
run of consecutive `%XX` escapes. -/
def utf8DecodeAll (bs : List Nat) : List Char := u8Run none bs

/-- Characters `quote` never escapes (`always_safe`; `urlencode` passes
`safe=''`, so nothing else is safe). -/
def quoteSafeChar (c : Char) : Bool :=
  c.isAlphanum || c == '_' || c == '.' || c == '-' || c == '~'

def pctEncByte (b : Nat) : List Char := ['%', hexDigitUpper (b / 16), hexDigitUpper (b % 16)]

def quote_plusChar (c : Char) : List Char :=
  if quoteSafeChar c then [c]
  else if c = ' ' then ['+']
  else (utf8Bytes c.toNat).flatMap pctEncByte

def quote_plusL (l : List Char) : List Char := l.flatMap quote_plusChar

def plusToSpace (c : Char) : Char := if c = '+' then ' ' else c

/-- Scanner for `unquote`: accumulate the bytes of a maximal `%XX` run in
`bs`, flushing them through the UTF-8 decoder at every literal character. -/
def unquoteAux : List Nat → List Char → List Char
  | bs, [] => utf8DecodeAll bs
  | bs, x :: h1 :: h2 :: r =>
    if x = '%' && isHexDigitCh h1 && isHexDigitCh h2 then
      unquoteAux (bs ++ [hexPairVal h1 h2]) r
    else utf8DecodeAll bs ++ x :: unquoteAux [] (h1 :: h2 :: r)
  | bs, x :: xs => utf8DecodeAll bs ++ x :: unquoteAux [] xs

def unquoteL (l : List Char) : List Char := unquoteAux [] l

/-- The `.replace('+', ' ')` followed by `unquote` that `parse_qsl` applies to
each name and value. -/
def unquotePlus (l : List Char) : List Char := unquoteL (l.map plusToSpace)

end Scrape

namespace Scrape

/-! ### Roundtrip: `unquote` after `quote_plus` is the identity -/

theorem char_valid_nat (c : Char) :
    c.toNat < 55296 ∨ (57344 ≤ c.toNat ∧ c.toNat < 1114112) := by
  have h := c.valid
  unfold UInt32.isValidChar at h
  unfold Nat.isValidChar at h
  exact h

theorem utf8Bytes_lt {n : Nat} (h : n < 1114112) : ∀ b ∈ utf8Bytes n, b < 256 := by
  intro b hb
  unfold utf8Bytes at hb
  split_ifs at hb <;>
    simp only [List.mem_cons, List.mem_singleton, List.not_mem_nil, or_false] at hb <;>
    rcases hb with hb | hb | hb | hb <;> omega

theorem utf8Bytes_ne_nil (n : Nat) : utf8Bytes n ≠ [] := by
  unfold utf8Bytes
  split_ifs <;> simp

theorem u8Run_none_cons (b : Nat) (bs : List Nat) :
    u8Run none (b :: bs) = (u8Lead b).1 ++ u8Run (u8Lead b).2 bs := rfl

theorem u8Run_some_cons (acc need lo hi b : Nat) (bs : List Nat) :
    u8Run (some (acc, need, lo, hi)) (b :: bs) =
      if lo ≤ b ∧ b < hi then
        if need = 1 then Char.ofNat (acc * 64 + (b - 0x80)) :: u8Run none bs
        else u8Run (some (acc * 64 + (b - 0x80), need - 1, 0x80, 0xC0)) bs
      else replChar :: ((u8Lead b).1 ++ u8Run (u8Lead b).2 bs) := rfl

theorem u8Lead_ascii {b : Nat} (h : b < 0x80) : u8Lead b = ([Char.ofNat b], none) := by
  unfold u8Lead
  rw [if_pos h]

theorem u8Lead_two {b : Nat} (h1 : 0xC2 ≤ b) (h2 : b < 0xE0) :
    u8Lead b = ([], some (b - 0xC0, 1, 0x80, 0xC0)) := by
  unfold u8Lead
  rw [if_neg (by omega), if_neg (by omega), if_pos h2]

theorem u8Lead_three {b : Nat} (h1 : 0xE0 ≤ b) (h2 : b < 0xF0) :
    u8Lead b = ([], some (b - 0xE0, 2, if b = 0xE0 then 0xA0 else 0x80,
      if b = 0xED then 0xA0 else 0xC0)) := by
  unfold u8Lead
  rw [if_neg (by omega), if_neg (by omega), if_neg (by omega), if_pos h2]

theorem u8Lead_four {b : Nat} (h1 : 0xF0 ≤ b) (h2 : b < 0xF5) :
    u8Lead b = ([], some (b - 0xF0, 3, if b = 0xF0 then 0x90 else 0x80,
      if b = 0xF4 then 0x90 else 0xC0)) := by
  unfold u8Lead
  rw [if_neg (by omega), if_neg (by omega), if_neg (by omega), if_neg (by omega), if_pos h2]

theorem utf8_decode_valid {n : Nat} (hlt : n < 1114112) (hs : ¬(55296 ≤ n ∧ n < 57344))
    (r : List Nat) :
    utf8DecodeAll (utf8Bytes n ++ r) = Char.ofNat n :: utf8DecodeAll r := by
  unfold utf8DecodeAll
  by_cases h1 : n < 0x80
  · rw [show utf8Bytes n = [n] by unfold utf8Bytes; rw [if_pos h1]]
    rw [List.singleton_append, u8Run_none_cons, u8Lead_ascii h1]
    rfl
  · by_cases h2 : n < 0x800
    · rw [show utf8Bytes n = [0xC0 + n / 64, 0x80 + n % 64] by
        unfold utf8Bytes; rw [if_neg h1, if_pos h2]]
      simp only [List.cons_append, List.nil_append]
      rw [u8Run_none_cons, u8Lead_two (by omega) (by omega)]
      rw [u8Run_some_cons]
      rw [if_pos (show 0x80 ≤ 0x80 + n % 64 ∧ 0x80 + n % 64 < 0xC0 by omega)]
      rw [if_pos (show (1 : Nat) = 1 from rfl)]
      simp only [List.nil_append]
      congr 2
      omega
    · by_cases h3 : n < 0x10000
      · rw [show utf8Bytes n = [0xE0 + n / 4096, 0x80 + n / 64 % 64, 0x80 + n % 64] by
          unfold utf8Bytes; rw [if_neg h1, if_neg h2, if_pos h3]]
        simp only [List.cons_append, List.nil_append]
        have e1 : n / 64 / 64 = n / 4096 := by
          rw [Nat.div_div_eq_div_mul]
        have hbnd : ((if 0xE0 + n / 4096 = 0xE0 then 0xA0 else 0x80) ≤ 0x80 + n / 64 % 64 ∧
            0x80 + n / 64 % 64 < if 0xE0 + n / 4096 = 0xED then 0xA0 else 0xC0) := by
          constructor <;> split_ifs <;> omega
        rw [u8Run_none_cons, u8Lead_three (by omega) (by omega)]
        rw [u8Run_some_cons, if_pos hbnd]
        rw [if_neg (show ¬((2 : Nat) = 1) by omega)]
        rw [u8Run_some_cons]
        rw [if_pos (show 0x80 ≤ 0x80 + n % 64 ∧ 0x80 + n % 64 < 0xC0 by omega)]
        rw [if_pos (show (2 : Nat) - 1 = 1 by omega)]
        simp only [List.nil_append]
        congr 2
        omega
      · rw [show utf8Bytes n =
            [0xF0 + n / 0x40000, 0x80 + n / 4096 % 64, 0x80 + n / 64 % 64, 0x80 + n % 64] by
          unfold utf8Bytes; rw [if_neg h1, if_neg h2, if_neg h3]]
        simp only [List.cons_append, List.nil_append]
        have e1 : n / 64 / 64 = n / 4096 := by
          rw [Nat.div_div_eq_div_mul]
        have e2 : n / 4096 / 64 = n / 0x40000 := by
          rw [Nat.div_div_eq_div_mul]
        have hbnd : ((if 0xF0 + n / 0x40000 = 0xF0 then 0x90 else 0x80) ≤
              0x80 + n / 4096 % 64 ∧
            0x80 + n / 4096 % 64 < if 0xF0 + n / 0x40000 = 0xF4 then 0x90 else 0xC0) := by
          constructor <;> split_ifs <;> omega
        rw [u8Run_none_cons, u8Lead_four (by omega) (by omega)]
        rw [u8Run_some_cons, if_pos hbnd]
        rw [if_neg (show ¬((3 : Nat) = 1) by omega)]
        rw [u8Run_some_cons]
        rw [if_pos (show 0x80 ≤ 0x80 + n / 64 % 64 ∧ 0x80 + n / 64 % 64 < 0xC0 by omega)]
        rw [if_neg (show ¬((3 : Nat) - 1 = 1) by omega)]
        rw [u8Run_some_cons]
        rw [if_pos (show 0x80 ≤ 0x80 + n % 64 ∧ 0x80 + n % 64 < 0xC0 by omega)]
        rw [if_pos (show (3 : Nat) - 1 - 1 = 1 by omega)]
        simp only [List.nil_append]
        congr 2
        omega

theorem utf8_decode_enc (c : Char) (r : List Nat) :
    utf8DecodeAll (utf8Bytes c.toNat ++ r) = c :: utf8DecodeAll r := by
  have hv := char_valid_nat c
  rw [utf8_decode_valid (by omega) (by omega) r, Char.ofNat_toNat]

theorem utf8DecodeAll_encList (cs : List Char) :
    utf8DecodeAll (cs.flatMap (fun c => utf8Bytes c.toNat)) = cs := by
  induction cs with
  | nil => rfl
  | cons c cs ih => rw [List.flatMap_cons, utf8_decode_enc, ih]

theorem hexVal_hexDigitUpper : ∀ k, k < 16 → hexVal (hexDigitUpper k) = k := by decide

theorem isHex_hexDigitUpper : ∀ k, k < 16 → isHexDigitCh (hexDigitUpper k) = true := by decide

theorem hexDigitUpper_ne_plus : ∀ k, k < 16 → hexDigitUpper k ≠ '+' := by decide

theorem unquoteAux_pct {bytes : List Nat} (h : ∀ b ∈ bytes, b < 256) (bs : List Nat)
    (r : List Char) :
    unquoteAux bs (bytes.flatMap pctEncByte ++ r) = unquoteAux (bs ++ bytes) r := by
  induction bytes generalizing bs with
  | nil => simp
  | cons b bt ih =>
    have hb : b < 256 := h b (by simp)
    have hdiv : b / 16 < 16 := by omega
    have hmod : b % 16 < 16 := by omega
    rw [List.flatMap_cons]
    rw [show pctEncByte b = '%' :: hexDigitUpper (b / 16) :: hexDigitUpper (b % 16) :: []
      from rfl]
    simp only [List.cons_append, List.nil_append]
    rw [unquoteAux]
    rw [if_pos (by
      simp [isHex_hexDigitUpper _ hdiv, isHex_hexDigitUpper _ hmod])]
    rw [show hexPairVal (hexDigitUpper (b / 16)) (hexDigitUpper (b % 16)) = b by
      unfold hexPairVal
      rw [hexVal_hexDigitUpper _ hdiv, hexVal_hexDigitUpper _ hmod]
      omega]
    rw [ih (fun x hx => h x (by simp [hx])) (bs ++ [b])]
    rw [List.append_assoc]
    rfl

end Scrape

namespace Scrape

theorem unquoteAux_flush {x : Char} (hx : x ≠ '%') (bs : List Nat) (rest : List Char) :
    unquoteAux bs (x :: rest) = utf8DecodeAll bs ++ x :: unquoteAux [] rest := by
  match rest with
  | [] => rfl
  | [y] => rfl
  | y :: z :: r =>
    rw [unquoteAux]
    rw [if_neg (by simp [hx])]

theorem quote_plusChar_classified {c x : Char} (hmem : x ∈ quote_plusChar c) :
    quoteSafeChar x = true ∨ x = '+' ∨ x = '%' ∨ ∃ k, k < 16 ∧ x = hexDigitUpper k := by
  unfold quote_plusChar at hmem
  split_ifs at hmem with hsafe hspace
  · simp only [List.mem_singleton] at hmem
    subst hmem
    exact Or.inl hsafe
  · simp only [List.mem_singleton] at hmem
    subst hmem
    right; left; rfl
  · rw [List.mem_flatMap] at hmem
    obtain ⟨b, hb, hx⟩ := hmem
    have hb256 : b < 256 := utf8Bytes_lt (by have := char_valid_nat c; omega) b hb
    unfold pctEncByte at hx
    simp only [List.mem_cons, List.not_mem_nil, or_false] at hx
    rcases hx with hx | hx | hx
    · subst hx; right; right; left; rfl
    · subst hx; right; right; right; exact ⟨b / 16, by omega, rfl⟩
    · subst hx; right; right; right; exact ⟨b % 16, by omega, rfl⟩

theorem quote_plus_avoid {l : List Char} {x d : Char} (hmem : x ∈ quote_plusL l)
    (h1 : quoteSafeChar d = false) (h2 : d ≠ '+') (h3 : d ≠ '%')
    (h4 : ∀ k, k < 16 → hexDigitUpper k ≠ d) : x ≠ d := by
  unfold quote_plusL at hmem
  rw [List.mem_flatMap] at hmem
  obtain ⟨c, _, hc⟩ := hmem
  intro hxd
  subst hxd
  rcases quote_plusChar_classified hc with h | h | h | ⟨k, hk, he⟩
  · rw [h1] at h
    exact absurd h (by simp)
  · exact h2 h
  · exact h3 h
  · exact h4 k hk he.symm

theorem map_plusToSpace_id {l : List Char} (h : ∀ x ∈ l, x ≠ '+') :
    l.map plusToSpace = l := by
  induction l with
  | nil => rfl
  | cons x xs ih =>
    rw [List.map_cons, ih (fun y hy => h y (by simp [hy]))]
    rw [show plusToSpace x = x by unfold plusToSpace; rw [if_neg (h x (by simp))]]

theorem pct_block_ne_plus {c : Char} :
    ∀ x ∈ (utf8Bytes c.toNat).flatMap pctEncByte, x ≠ '+' := by
  intro x hx
  rw [List.mem_flatMap] at hx
  obtain ⟨b, hb, hxx⟩ := hx
  have hb256 : b < 256 := utf8Bytes_lt (by have := char_valid_nat c; omega) b hb
  unfold pctEncByte at hxx
  simp only [List.mem_cons, List.not_mem_nil, or_false] at hxx
  rcases hxx with hxx | hxx | hxx
  · subst hxx; decide
  · subst hxx; exact hexDigitUpper_ne_plus _ (by omega)
  · subst hxx; exact hexDigitUpper_ne_plus _ (by omega)

theorem unquoteAux_quote (l : List Char) : ∀ pre : List Char,
    unquoteAux (pre.flatMap (fun c => utf8Bytes c.toNat)) ((quote_plusL l).map plusToSpace)
      = pre ++ l := by
  induction l with
  | nil =>
    intro pre
    rw [show quote_plusL [] = [] from rfl, List.map_nil]
    rw [show unquoteAux (pre.flatMap fun c => utf8Bytes c.toNat) [] =
      utf8DecodeAll (pre.flatMap fun c => utf8Bytes c.toNat) from rfl]
    rw [utf8DecodeAll_encList]
    simp
  | cons c l' ih =>
    intro pre
    rw [show quote_plusL (c :: l') = quote_plusChar c ++ quote_plusL l' from rfl]
    rw [List.map_append]
    by_cases hsafe : quoteSafeChar c = true
    · rw [show quote_plusChar c = [c] by unfold quote_plusChar; rw [if_pos hsafe]]
      have hplus : c ≠ '+' := by
        intro he; subst he; exact absurd hsafe (by decide)
      have hpct : c ≠ '%' := by
        intro he; subst he; exact absurd hsafe (by decide)
      rw [show ([c].map plusToSpace) = [c] by
        rw [List.map_singleton, show plusToSpace c = c by
          unfold plusToSpace; rw [if_neg hplus]]]
      rw [List.singleton_append, unquoteAux_flush hpct, utf8DecodeAll_encList]
      have h0 := ih []
      simp only [List.flatMap_nil, List.nil_append] at h0
      rw [h0]
    · by_cases hsp : c = ' '
      · subst hsp
        rw [show quote_plusChar ' ' = ['+'] by
          unfold quote_plusChar; rw [if_neg hsafe, if_pos rfl]]
        rw [show (['+'].map plusToSpace) = [' '] by
          rw [List.map_singleton]; rfl]
        rw [List.singleton_append, unquoteAux_flush (by decide), utf8DecodeAll_encList]
        have h0 := ih []
        simp only [List.flatMap_nil, List.nil_append] at h0
        rw [h0]
      · rw [show quote_plusChar c = (utf8Bytes c.toNat).flatMap pctEncByte by
          unfold quote_plusChar; rw [if_neg hsafe, if_neg hsp]]
        rw [map_plusToSpace_id pct_block_ne_plus]
        rw [unquoteAux_pct (utf8Bytes_lt (by have := char_valid_nat c; omega))]
        rw [show pre.flatMap (fun c => utf8Bytes c.toNat) ++ utf8Bytes c.toNat =
          (pre ++ [c]).flatMap (fun c => utf8Bytes c.toNat) by simp]
        rw [ih (pre ++ [c])]
        simp

theorem unquotePlus_quote_plus (l : List Char) : unquotePlus (quote_plusL l) = l := by
  have h := unquoteAux_quote l []
  simpa [unquotePlus, unquoteL] using h

theorem quote_plusChar_ne_nil (c : Char) : quote_plusChar c ≠ [] := by
  unfold quote_plusChar
  split_ifs
  · simp
  · simp
  · cases hbb : utf8Bytes c.toNat with
    | nil => exact absurd hbb (utf8Bytes_ne_nil _)
    | cons b bt => simp [pctEncByte]

theorem quote_plusL_ne_nil {l : List Char} (h : l ≠ []) : quote_plusL l ≠ [] := by
  cases l with
  | nil => exact absurd rfl h
  | cons c t =>
    intro hc
    rw [show quote_plusL (c :: t) = quote_plusChar c ++ quote_plusL t from rfl] at hc
    exact quote_plusChar_ne_nil c (List.append_eq_nil.mp hc).1

theorem u8Lead_cases (b : Nat) : (u8Lead b).1 ≠ [] ∨ (u8Lead b).2 ≠ none := by
  unfold u8Lead
  split_ifs <;> simp

theorem u8Run_ne_nil : ∀ (bs : List Nat) (st : Option (Nat × Nat × Nat × Nat)),
    st ≠ none ∨ bs ≠ [] → u8Run st bs ≠ [] := by
  intro bs
  induction bs with
  | nil =>
    intro st h
    cases st with
    | none => rcases h with h | h <;> simp at h
    | some q => simp [u8Run]
  | cons b bt ih =>
    intro st h
    cases st with
    | none =>
      rw [u8Run_none_cons]
      rcases u8Lead_cases b with hh | hh
      · intro hcontra
        exact hh (List.append_eq_nil.mp hcontra).1
      · intro hcontra
        exact ih ((u8Lead b).2) (Or.inl hh) (List.append_eq_nil.mp hcontra).2
    | some q =>
      obtain ⟨acc, need, lo, hi⟩ := q
      rw [u8Run_some_cons]
      split_ifs with h1 h2
      · simp
      · exact ih _ (Or.inl (by simp))
      · simp

theorem utf8DecodeAll_ne_nil {bs : List Nat} (h : bs ≠ []) : utf8DecodeAll bs ≠ [] :=
  u8Run_ne_nil bs none (Or.inr h)

theorem unquoteAux_ne_nil_aux : ∀ (k : Nat) (l : List Char), l.length ≤ k →
    ∀ bs : List Nat, bs ≠ [] ∨ l ≠ [] → unquoteAux bs l ≠ [] := by
  intro k
  induction k with
  | zero =>
    intro l hl bs h
    have hnil : l = [] := List.eq_nil_of_length_eq_zero (Nat.le_zero.mp hl)
    subst hnil
    rcases h with h | h
    · exact utf8DecodeAll_ne_nil h
    · exact absurd rfl h
  | succ k ihk =>
    intro l hl bs h
    cases l with
    | nil =>
      rcases h with h | h
      · exact utf8DecodeAll_ne_nil h
      · exact absurd rfl h
    | cons x xs =>
      cases xs with
      | nil => simp [unquoteAux]
      | cons y ys =>
        cases ys with
        | nil => simp [unquoteAux]
        | cons z zs =>
          rw [unquoteAux]
          split_ifs with hcond
          · apply ihk zs (by simp at hl ⊢; omega)
            left
            simp
          · simp

theorem unquotePlus_ne_nil {l : List Char} (h : l ≠ []) : unquotePlus l ≠ [] := by
  unfold unquotePlus unquoteL
  apply unquoteAux_ne_nil_aux (l.map plusToSpace).length _ le_rfl
  right
  simp [h]

end Scrape

namespace Scrape

/-! ### `parse_qsl`, `parse_qs`, `urlencode(..., doseq=True)` -/

/-- `str.join` with a one-character separator. -/
def joinSep (sep : Char) : List (List Char) → List Char
  | [] => []
  | [p] => p
  | p :: q :: rest => p ++ sep :: joinSep sep (q :: rest)

/-- One `name=value` piece of a query string, as `parse_qsl` treats it: empty
pieces are skipped, a missing `=` yields a blank value, blank values are
dropped (`keep_blank_values=False` default), and names and values go through
`.replace('+', ' ')` plus `unquote`. -/
def pqsPair (piece : List Char) : Option (List Char × List Char) :=
  if piece = [] then none
  else
    let nv := splitFirst '=' piece
    let v := (nv.2).getD []
    if v = [] then none
    else some (unquotePlus nv.1, unquotePlus v)

def parse_qslL (qs : List Char) : List (List Char × List Char) :=
  (splitAll '&' qs).filterMap pqsPair

/-- The dict-building step of `parse_qs`: append `v` under `k`, inserting `k`
at the end on first occurrence (Python dicts preserve insertion order). -/
def qsInsert (d : List (List Char × List (List Char))) (k v : List Char) :
    List (List Char × List (List Char)) :=
  match d with
  | [] => [(k, [v])]
  | (k', vs) :: rest =>
    if k' = k then (k', vs ++ [v]) :: rest else (k', vs) :: qsInsert rest k v

def parse_qsL (qs : List Char) : List (List Char × List (List Char)) :=
  (parse_qslL qs).foldl (fun d kv => qsInsert d kv.1 kv.2) []

/-- Python dict assignment `d[k] = v`: overwrite in place, else append. -/
def dictSet (d : List (List Char × List (List Char))) (k : List Char)
    (v : List (List Char)) : List (List Char × List (List Char)) :=
  match d with
  | [] => [(k, v)]
  | (k', v') :: rest =>
    if k' = k then (k', v) :: rest else (k', v') :: dictSet rest k v

/-- `urlencode(d, doseq=True)`: one `quote_plus(k)=quote_plus(v)` piece per
value, joined by `&`, in dict insertion order. -/
def urlencodeL (d : List (List Char × List (List Char))) : List Char :=
  joinSep '&' (d.flatMap (fun kv => kv.2.map (fun v => quote_plusL kv.1 ++ '=' :: quote_plusL v)))

/-- Association-list lookup (`dict.get`). -/
def lookupKey : List (List Char × List (List Char)) → List Char →
    Option (List (List Char))
  | [], _ => none
  | (k', v) :: rest, k => if k' = k then some v else lookupKey rest k

/-- Drop every entry with the given key (used only to state frame properties). -/
def removeKey : List (List Char × List (List Char)) → List Char →
    List (List Char × List (List Char))
  | [], _ => []
  | (k', v) :: rest, k =>
    if k' = k then removeKey rest k else (k', v) :: removeKey rest k

/-- The multiset of `(key, value)` pairs a grouped dict stands for. -/
def flatPairs (d : List (List Char × List (List Char))) : List (List Char × List Char) :=
  d.flatMap (fun kv => kv.2.map (fun v => (kv.1, v)))

end Scrape

namespace Scrape

/-! ### Roundtrip: `parse_qs` after `urlencode(doseq=True)` -/

theorem splitAll_joinSep {sep : Char} {parts : List (List Char)} (hne : parts ≠ [])
    (hfree : ∀ p ∈ parts, sep ∉ p) :
    splitAll sep (joinSep sep parts) = parts := by
  induction parts with
  | nil => exact absurd rfl hne
  | cons p rest ih =>
    cases rest with
    | nil =>
      rw [show joinSep sep [p] = p from rfl]
      exact splitAll_of_not_mem (hfree p (by simp))
    | cons q rest' =>
      rw [show joinSep sep (p :: q :: rest') = p ++ sep :: joinSep sep (q :: rest') from rfl]
      rw [splitAll_append (hfree p (by simp))]
      rw [ih (by simp) (fun x hx => hfree x (by simp [hx]))]

theorem quote_plusL_no_eq {l : List Char} : '=' ∉ quote_plusL l := by
  intro h
  exact quote_plus_avoid h (by decide) (by decide) (by decide) (by decide) rfl

theorem quote_plusL_no_amp {l : List Char} : '&' ∉ quote_plusL l := by
  intro h
  exact quote_plus_avoid h (by decide) (by decide) (by decide) (by decide) rfl

theorem pqsPair_piece {k v : List Char} (hv : v ≠ []) :
    pqsPair (quote_plusL k ++ '=' :: quote_plusL v) = some (k, v) := by
  unfold pqsPair
  rw [if_neg (by simp)]
  rw [show splitFirst '=' (quote_plusL k ++ '=' :: quote_plusL v) =
    (quote_plusL k, some (quote_plusL v)) from splitFirst_append quote_plusL_no_eq]
  rw [if_neg (by simp [quote_plusL_ne_nil hv])]
  simp [unquotePlus_quote_plus]

theorem filterMap_run {k : List Char} {vs : List (List Char)}
    (hv : ∀ v ∈ vs, v ≠ []) :
    (vs.map (fun v => quote_plusL k ++ '=' :: quote_plusL v)).filterMap pqsPair =
      vs.map (fun v => (k, v)) := by
  induction vs with
  | nil => rfl
  | cons v vs' ih =>
    rw [List.map_cons, List.map_cons, List.filterMap_cons]
    rw [pqsPair_piece (hv v (by simp))]
    rw [ih (fun x hx => hv x (by simp [hx]))]

theorem filterMap_pieces {d : List (List Char × List (List Char))}
    (hv : ∀ kv ∈ d, ∀ v ∈ kv.2, v ≠ []) :
    ((d.flatMap (fun kv => kv.2.map (fun v => quote_plusL kv.1 ++ '=' :: quote_plusL v)))
      |>.filterMap pqsPair) = flatPairs d := by
  induction d with
  | nil => rfl
  | cons kv d' ih =>
    rw [List.flatMap_cons, List.filterMap_append]
    rw [filterMap_run (fun v hvv => hv kv (by simp) v hvv)]
    rw [ih (fun kv' h' => hv kv' (by simp [h']))]
    rfl

theorem qsInsert_not_mem {d : List (List Char × List (List Char))} {k : List Char}
    {v : List Char} (h : k ∉ d.map Prod.fst) :
    qsInsert d k v = d ++ [(k, [v])] := by
  induction d with
  | nil => rfl
  | cons kv rest ih =>
    obtain ⟨k', vs⟩ := kv
    simp only [List.map_cons, List.mem_cons, not_or] at h
    rw [show qsInsert ((k', vs) :: rest) k v =
      if k' = k then (k', vs ++ [v]) :: rest else (k', vs) :: qsInsert rest k v from rfl]
    rw [if_neg (fun he => h.1 he.symm), ih h.2]
    rfl

theorem qsInsert_append_last {acc : List (List Char × List (List Char))} {k : List Char}
    {cur : List (List Char)} {v : List Char} (h : k ∉ acc.map Prod.fst) :
    qsInsert (acc ++ [(k, cur)]) k v = acc ++ [(k, cur ++ [v])] := by
  induction acc with
  | nil => simp [qsInsert]
  | cons kv acc' ih =>
    obtain ⟨k', vs'⟩ := kv
    simp only [List.map_cons, List.mem_cons, not_or] at h
    simp only [List.cons_append]
    rw [show qsInsert ((k', vs') :: (acc' ++ [(k, cur)])) k v =
      if k' = k then (k', vs' ++ [v]) :: (acc' ++ [(k, cur)])
      else (k', vs') :: qsInsert (acc' ++ [(k, cur)]) k v from rfl]
    rw [if_neg (fun he => h.1 he.symm)]
    rw [ih h.2]

theorem qsInsert_run {acc : List (List Char × List (List Char))} {k : List Char}
    {vs : List (List Char)} (h : k ∉ acc.map Prod.fst) (hne : vs ≠ []) :
    (vs.map (fun v => ((k, v) : List Char × List Char))).foldl
      (fun d kv => qsInsert d kv.1 kv.2) acc = acc ++ [(k, vs)] := by
  have step : ∀ (rest cur : List (List Char)),
      (rest.map (fun v => ((k, v) : List Char × List Char))).foldl
        (fun d kv => qsInsert d kv.1 kv.2) (acc ++ [(k, cur)]) =
        acc ++ [(k, cur ++ rest)] := by
    intro rest
    induction rest with
    | nil => simp
    | cons v rest' ih =>
      intro cur
      rw [List.map_cons, List.foldl_cons, qsInsert_append_last h, ih (cur ++ [v])]
      simp
  cases vs with
  | nil => exact absurd rfl hne
  | cons v vs' =>
    rw [List.map_cons, List.foldl_cons, qsInsert_not_mem h]
    rw [step vs' [v]]
    simp

theorem qsGroup_flat {d : List (List Char × List (List Char))}
    (hkeys : (d.map Prod.fst).Nodup) (hvs : ∀ kv ∈ d, kv.2 ≠ []) :
    (flatPairs d).foldl (fun d kv => qsInsert d kv.1 kv.2) [] = d := by
  suffices h : ∀ acc, (∀ kv ∈ d, kv.1 ∉ acc.map Prod.fst) →
      (flatPairs d).foldl (fun d kv => qsInsert d kv.1 kv.2) acc = acc ++ d by
    simpa using h [] (by simp)
  induction d with
  | nil => intro acc _; simp [flatPairs]
  | cons kv d' ih =>
    intro acc hacc
    obtain ⟨k, vs⟩ := kv
    rw [show flatPairs ((k, vs) :: d') =
      vs.map (fun v => (k, v)) ++ flatPairs d' from rfl]
    rw [List.foldl_append]
    rw [qsInsert_run (hacc (k, vs) (by simp)) (hvs (k, vs) (by simp))]
    simp only [List.map_cons, List.nodup_cons] at hkeys
    rw [ih hkeys.2 (fun kv' h' => hvs kv' (by simp [h'])) (acc ++ [(k, vs)])
      (by
        intro kv' h'
        have h1 : kv'.1 ∉ acc.map Prod.fst := hacc kv' (by simp [h'])
        have h2 : kv'.1 ≠ k := by
          intro he
          apply hkeys.1
          rw [← he]
          exact List.mem_map.mpr ⟨kv', h', rfl⟩
        simp only [List.map_append, List.mem_append, not_or]
        exact ⟨h1, by simpa using h2⟩)]
    simp

theorem pieces_nil_iff {d : List (List Char × List (List Char))}
    (hvs : ∀ kv ∈ d, kv.2 ≠ []) :
    (d.flatMap (fun kv => kv.2.map (fun v => quote_plusL kv.1 ++ '=' :: quote_plusL v))) = []
      ↔ d = [] := by
  constructor
  · intro h
    cases d with
    | nil => rfl
    | cons kv d' =>
      rw [List.flatMap_cons] at h
      obtain ⟨h1, _⟩ := List.append_eq_nil.mp h
      rw [List.map_eq_nil_iff] at h1
      exact absurd h1 (hvs kv (by simp))
  · intro h; subst h; rfl

theorem parse_qs_urlencode {d : List (List Char × List (List Char))}
    (hkeys : (d.map Prod.fst).Nodup)
    (hvs : ∀ kv ∈ d, kv.2 ≠ [] ∧ ∀ v ∈ kv.2, v ≠ []) :
    parse_qsL (urlencodeL d) = d := by
  unfold parse_qsL parse_qslL urlencodeL
  by_cases hp : (d.flatMap
      (fun kv => kv.2.map (fun v => quote_plusL kv.1 ++ '=' :: quote_plusL v))) = []
  · have hd : d = [] := (pieces_nil_iff (fun kv h => (hvs kv h).1)).mp hp
    subst hd
    rfl
  · rw [splitAll_joinSep hp (by
      intro p hp'
      rw [List.mem_flatMap] at hp'
      obtain ⟨kv, hkv, hmem⟩ := hp'
      rw [List.mem_map] at hmem
      obtain ⟨v, _, hv⟩ := hmem
      subst hv
      simp only [List.mem_append, List.mem_cons, not_or]
      exact ⟨fun hc => quote_plusL_no_amp hc, by decide,
        fun hc => quote_plusL_no_amp hc⟩)]
    rw [filterMap_pieces (fun kv h => (hvs kv h).2)]
    exact qsGroup_flat hkeys (fun kv h => (hvs kv h).1)

end Scrape

namespace Scrape

/-! ### Well-formedness of `parse_qs` output and `dict` assignment lemmas -/

theorem pqsPair_some {piece : List Char} {p : List Char × List Char}
    (h : pqsPair piece = some p) : p.2 ≠ [] := by
  simp only [pqsPair] at h
  split_ifs at h with h1 h2
  · injection h with h3
    rw [← h3]
    exact unquotePlus_ne_nil h2

theorem parse_qslL_values {qs : List Char} : ∀ p ∈ parse_qslL qs, p.2 ≠ [] := by
  intro p hp
  unfold parse_qslL at hp
  rw [List.mem_filterMap] at hp
  obtain ⟨piece, _, he⟩ := hp
  exact pqsPair_some he

theorem mem_keys_qsInsert {d : List (List Char × List (List Char))} {k v k1 : List Char} :
    k1 ∈ (qsInsert d k v).map Prod.fst ↔ k1 ∈ d.map Prod.fst ∨ k1 = k := by
  induction d with
  | nil => simp [qsInsert]
  | cons kv rest ih =>
    obtain ⟨k0, vs0⟩ := kv
    rw [show qsInsert ((k0, vs0) :: rest) k v =
      if k0 = k then (k0, vs0 ++ [v]) :: rest else (k0, vs0) :: qsInsert rest k v from rfl]
    by_cases he : k0 = k
    · subst he
      rw [if_pos rfl]
      simp only [List.map_cons, List.mem_cons]
      constructor
      · exact Or.inl
      · rintro (h | h)
        · exact h
        · subst h; simp
    · rw [if_neg he]
      simp only [List.map_cons, List.mem_cons, ih, or_assoc]

theorem nodup_keys_qsInsert {d : List (List Char × List (List Char))} {k v : List Char}
    (h : (d.map Prod.fst).Nodup) : ((qsInsert d k v).map Prod.fst).Nodup := by
  induction d with
  | nil => simp [qsInsert]
  | cons kv rest ih =>
    obtain ⟨k0, vs0⟩ := kv
    simp only [List.map_cons, List.nodup_cons] at h
    rw [show qsInsert ((k0, vs0) :: rest) k v =
      if k0 = k then (k0, vs0 ++ [v]) :: rest else (k0, vs0) :: qsInsert rest k v from rfl]
    by_cases he : k0 = k
    · subst he
      rw [if_pos rfl]
      simp only [List.map_cons, List.nodup_cons]
      exact ⟨h.1, h.2⟩
    · rw [if_neg he]
      simp only [List.map_cons, List.nodup_cons]
      refine ⟨?_, ih h.2⟩
      intro hc
      rcases mem_keys_qsInsert.mp hc with hr | hr
      · exact h.1 hr
      · exact he hr

theorem values_qsInsert {d : List (List Char × List (List Char))} {k v : List Char}
    (hd : ∀ kv ∈ d, kv.2 ≠ [] ∧ ∀ x ∈ kv.2, x ≠ []) (hv : v ≠ []) :
    ∀ kv ∈ qsInsert d k v, kv.2 ≠ [] ∧ ∀ x ∈ kv.2, x ≠ [] := by
  induction d with
  | nil =>
    intro kv hkv
    simp only [qsInsert, List.mem_singleton] at hkv
    subst hkv
    exact ⟨by simp, by simpa using hv⟩
  | cons kv0 rest ih =>
    obtain ⟨k0, vs0⟩ := kv0
    rw [show qsInsert ((k0, vs0) :: rest) k v =
      if k0 = k then (k0, vs0 ++ [v]) :: rest else (k0, vs0) :: qsInsert rest k v from rfl]
    by_cases he : k0 = k
    · subst he
      rw [if_pos rfl]
      intro kv hkv
      rcases List.mem_cons.mp hkv with hkv | hkv
      · subst hkv
        constructor
        · simp
        · intro x hx
          rcases List.mem_append.mp hx with hx | hx
          · exact (hd (k0, vs0) (by simp)).2 x hx
          · rw [List.mem_singleton] at hx
            subst hx
            exact hv
      · exact hd kv (by simp [hkv])
    · rw [if_neg he]
      intro kv hkv
      rcases List.mem_cons.mp hkv with hkv | hkv
      · subst hkv
        exact hd (k0, vs0) (by simp)
      · exact ih (fun kv' h' => hd kv' (by simp [h'])) kv hkv

theorem foldl_qsInsert_wf : ∀ (ps : List (List Char × List Char)),
    (∀ p ∈ ps, p.2 ≠ []) →
    ∀ acc : List (List Char × List (List Char)), (acc.map Prod.fst).Nodup →
    (∀ kv ∈ acc, kv.2 ≠ [] ∧ ∀ x ∈ kv.2, x ≠ []) →
    (((ps.foldl (fun d kv => qsInsert d kv.1 kv.2) acc).map Prod.fst).Nodup ∧
      ∀ kv ∈ ps.foldl (fun d kv => qsInsert d kv.1 kv.2) acc,
        kv.2 ≠ [] ∧ ∀ x ∈ kv.2, x ≠ []) := by
  intro ps
  induction ps with
  | nil => intro _ acc h1 h2; exact ⟨h1, h2⟩
  | cons p ps' ih =>
    intro hps acc h1 h2
    rw [List.foldl_cons]
    exact ih (fun q hq => hps q (by simp [hq])) (qsInsert acc p.1 p.2)
      (nodup_keys_qsInsert h1) (values_qsInsert h2 (hps p (by simp)))

theorem parse_qsL_wf (qs : List Char) :
    ((parse_qsL qs).map Prod.fst).Nodup ∧
      ∀ kv ∈ parse_qsL qs, kv.2 ≠ [] ∧ ∀ x ∈ kv.2, x ≠ [] := by
  unfold parse_qsL
  exact foldl_qsInsert_wf (parse_qslL qs) parse_qslL_values [] (by simp) (by simp)

theorem mem_keys_dictSet {d : List (List Char × List (List Char))} {k k1 : List Char}
    {v : List (List Char)} :
    k1 ∈ (dictSet d k v).map Prod.fst ↔ k1 ∈ d.map Prod.fst ∨ k1 = k := by
  induction d with
  | nil => simp [dictSet]
  | cons kv rest ih =>
    obtain ⟨k0, v0⟩ := kv
    rw [show dictSet ((k0, v0) :: rest) k v =
      if k0 = k then (k0, v) :: rest else (k0, v0) :: dictSet rest k v from rfl]
    by_cases he : k0 = k
    · subst he
      rw [if_pos rfl]
      simp only [List.map_cons, List.mem_cons]
      constructor
      · exact Or.inl
      · rintro (h | h)
        · exact h
        · subst h; simp
    · rw [if_neg he]
      simp only [List.map_cons, List.mem_cons, ih, or_assoc]

theorem nodup_keys_dictSet {d : List (List Char × List (List Char))} {k : List Char}
    {v : List (List Char)} (h : (d.map Prod.fst).Nodup) :
    ((dictSet d k v).map Prod.fst).Nodup := by
  induction d with
  | nil => simp [dictSet]
  | cons kv rest ih =>
    obtain ⟨k0, v0⟩ := kv
    simp only [List.map_cons, List.nodup_cons] at h
    rw [show dictSet ((k0, v0) :: rest) k v =
      if k0 = k then (k0, v) :: rest else (k0, v0) :: dictSet rest k v from rfl]
    by_cases he : k0 = k
    · subst he
      rw [if_pos rfl]
      simp only [List.map_cons, List.nodup_cons]
      exact ⟨h.1, h.2⟩
    · rw [if_neg he]
      simp only [List.map_cons, List.nodup_cons]
      refine ⟨?_, ih h.2⟩
      intro hc
      rcases mem_keys_dictSet.mp hc with hr | hr
      · exact h.1 hr
      · exact he hr

theorem values_dictSet {d : List (List Char × List (List Char))} {k : List Char}
    {v : List (List Char)} (hd : ∀ kv ∈ d, kv.2 ≠ [] ∧ ∀ x ∈ kv.2, x ≠ [])
    (hv : v ≠ [] ∧ ∀ x ∈ v, x ≠ []) :
    ∀ kv ∈ dictSet d k v, kv.2 ≠ [] ∧ ∀ x ∈ kv.2, x ≠ [] := by
  induction d with
  | nil =>
    intro kv hkv
    simp only [dictSet, List.mem_singleton] at hkv
    subst hkv
    exact hv
  | cons kv0 rest ih =>
    obtain ⟨k0, v0⟩ := kv0
    rw [show dictSet ((k0, v0) :: rest) k v =
      if k0 = k then (k0, v) :: rest else (k0, v0) :: dictSet rest k v from rfl]
    by_cases he : k0 = k
    · subst he
      rw [if_pos rfl]
      intro kv hkv
      rcases List.mem_cons.mp hkv with hkv | hkv
      · subst hkv
        exact hv
      · exact hd kv (by simp [hkv])
    · rw [if_neg he]
      intro kv hkv
      rcases List.mem_cons.mp hkv with hkv | hkv
      · subst hkv
        exact hd (k0, v0) (by simp)
      · exact ih (fun kv' h' => hd kv' (by simp [h'])) kv hkv

theorem removeKey_dictSet (d : List (List Char × List (List Char))) (k : List Char)
    (v : List (List Char)) : removeKey (dictSet d k v) k = removeKey d k := by
  induction d with
  | nil => simp [dictSet, removeKey]
  | cons kv rest ih =>
    obtain ⟨k0, v0⟩ := kv
    rw [show dictSet ((k0, v0) :: rest) k v =
      if k0 = k then (k0, v) :: rest else (k0, v0) :: dictSet rest k v from rfl]
    by_cases he : k0 = k
    · subst he
      rw [if_pos rfl]
      rw [show removeKey ((k0, v) :: rest) k0 = removeKey rest k0 from by
        simp [removeKey]]
      rw [show removeKey ((k0, v0) :: rest) k0 = removeKey rest k0 from by
        simp [removeKey]]
    · rw [if_neg he]
      rw [show removeKey ((k0, v0) :: dictSet rest k v) k =
        (k0, v0) :: removeKey (dictSet rest k v) k from by simp [removeKey, he]]
      rw [show removeKey ((k0, v0) :: rest) k = (k0, v0) :: removeKey rest k from by
        simp [removeKey, he]]
      rw [ih]

theorem lookupKey_dictSet (d : List (List Char × List (List Char))) (k : List Char)
    (v : List (List Char)) : lookupKey (dictSet d k v) k = some v := by
  induction d with
  | nil => simp [dictSet, lookupKey]
  | cons kv rest ih =>
    obtain ⟨k0, v0⟩ := kv
    rw [show dictSet ((k0, v0) :: rest) k v =
      if k0 = k then (k0, v) :: rest else (k0, v0) :: dictSet rest k v from rfl]
    by_cases he : k0 = k
    · subst he
      rw [if_pos rfl]
      simp [lookupKey]
    · rw [if_neg he]
      rw [show lookupKey ((k0, v0) :: dictSet rest k v) k =
        lookupKey (dictSet rest k v) k from by simp [lookupKey, he]]
      exact ih

end Scrape

namespace Scrape

/-! ### `urlsplit` / `urlunsplit` / `urlparse` / `urlunparse` -/

structure USplit where
  scheme : List Char
  netloc : List Char
  path : List Char
  query : List Char
  frag : List Char
deriving Repr, DecidableEq

def isNetDelim (c : Char) : Bool := c == '/' || c == '?' || c == '#'

def schemeCharOK (c : Char) : Bool :=
  c.isAlpha || c.isDigit || c == '+' || c == '-' || c == '.'

/-- CPython accepts `url[:i]` (the part before the first `:`) as a scheme iff
it is nonempty, starts with an ASCII letter and consists of letters, digits
and `+-.`. -/
def schemeOK (l : List Char) : Bool :=
  match l with
  | [] => false
  | c :: _ => c.isAlpha && l.all schemeCharOK

/-- Scheme extraction of `urlsplit`: on success the scheme is lowercased. -/
def splitSchemeL (l : List Char) : List Char × List Char :=
  match splitFirst ':' l with
  | (a, some b) => if schemeOK a then (a.map Char.toLower, b) else ([], l)
  | (_, none) => ([], l)

/-- `_splitnetloc`: after a leading `//`, the netloc runs to the next `/?#`. -/
def netlocSplit (r : List Char) : List Char × List Char :=
  if r.take 2 = ['/', '/'] then spanNone isNetDelim (r.drop 2) else ([], r)

def fragSplit (r : List Char) : List Char × List Char :=
  match splitFirst '#' r with
  | (a, some b) => (a, b)
  | (a, none) => (a, [])

def querySplit (r : List Char) : List Char × List Char :=
  match splitFirst '?' r with
  | (a, some b) => (a, b)
  | (a, none) => (a, [])

def urlsplitL (l : List Char) : USplit :=
  let s1 := splitSchemeL l
  let s2 := netlocSplit s1.2
  let s3 := fragSplit s2.2
  let s4 := querySplit s3.1
  ⟨s1.1, s2.1, s4.1, s4.2, s3.2⟩

def urlunsplitL (u : USplit) : List Char :=
  let p1 :=
    if u.netloc ≠ [] ∨ u.path.take 2 = ['/', '/'] then
      '/' :: '/' :: u.netloc ++
        (if u.path ≠ [] ∧ u.path.take 1 ≠ ['/'] then '/' :: u.path else u.path)
    else u.path
  let p2 := if u.scheme ≠ [] then u.scheme ++ ':' :: p1 else p1
  let p3 := if u.query ≠ [] then p2 ++ '?' :: u.query else p2
  if u.frag ≠ [] then p3 ++ '#' :: u.frag else p3

/-- `_splitparams`: split path parameters at the first `;` after the last `/`
(or the first `;` overall when the path has no `/`). -/
def splitParamsCore (l : List Char) : List Char × List Char :=
  match splitLast '/' l with
  | some (a, b) =>
    match splitFirst ';' b with
    | (b1, some b2) => (a ++ '/' :: b1, b2)
    | (_, none) => (l, [])
  | none =>
    match splitFirst ';' l with
    | (l1, some l2) => (l1, l2)
    | (_, none) => (l, [])

/-- `urlparse`'s path/params split (only applied when the path contains `;`). -/
def pathParams (p : List Char) : List Char × List Char :=
  if ';' ∈ p then splitParamsCore p else (p, [])

structure UParse where
  scheme : List Char
  netloc : List Char
  path : List Char
  params : List Char
  query : List Char
  frag : List Char
deriving Repr, DecidableEq

/-- CPython's `uses_params` list: `_splitparams` runs only for these schemes. -/
def uses_params : List (List Char) :=
  [[], "ftp".data, "hdl".data, "prospero".data, "http".data, "imap".data,
    "https".data, "shttp".data, "rtsp".data, "rtspu".data, "sip".data,
    "sips".data, "mms".data, "sftp".data, "tel".data]

def urlparseL (l : List Char) : UParse :=
  let u := urlsplitL l
  let pp := if u.scheme ∈ uses_params then pathParams u.path else (u.path, [])
  ⟨u.scheme, u.netloc, pp.1, pp.2, u.query, u.frag⟩

/-- `urlunparse` first glues `path;params` back together, then delegates to
`urlunsplit`. -/
def recombineParams (path ps : List Char) : List Char :=
  if ps ≠ [] then path ++ ';' :: ps else path

def urlunparseL (u : UParse) : List Char :=
  urlunsplitL ⟨u.scheme, u.netloc, recombineParams u.path u.params, u.query, u.frag⟩

end Scrape

namespace Scrape

/-! ### Character facts for scheme lowercasing -/

theorem toNat_ofNatAux (n : Nat) (h : n.isValidChar) : (Char.ofNatAux n h).toNat = n := by
  unfold Char.ofNatAux
  simp only [Char.toNat, UInt32.toNat, BitVec.toNat_ofNatLt]

theorem toNat_ofNat_valid (n : Nat) (h : n.isValidChar) : (Char.ofNat n).toNat = n := by
  unfold Char.ofNat
  rw [dif_pos h]
  exact toNat_ofNatAux n h

theorem toLower_eq_of_upper {c : Char} (h : 65 ≤ c.toNat ∧ c.toNat ≤ 90) :
    Char.toLower c = Char.ofNat (c.toNat + 32) := by
  unfold Char.toLower
  rw [if_pos h]

theorem toLower_eq_of_not_upper {c : Char} (h : ¬(65 ≤ c.toNat ∧ c.toNat ≤ 90)) :
    Char.toLower c = c := by
  unfold Char.toLower
  rw [if_neg h]

theorem isAlpha_toNat (c : Char) :
    c.isAlpha = true ↔ (65 ≤ c.toNat ∧ c.toNat ≤ 90) ∨ (97 ≤ c.toNat ∧ c.toNat ≤ 122) := by
  unfold Char.isAlpha Char.isUpper Char.isLower
  simp [UInt32.le_def, Char.toNat, UInt32.toNat, BitVec.le_def]

theorem toLower_idem (c : Char) : Char.toLower (Char.toLower c) = Char.toLower c := by
  by_cases h : 65 ≤ c.toNat ∧ c.toNat ≤ 90
  · rw [toLower_eq_of_upper h]
    apply toLower_eq_of_not_upper
    rw [toNat_ofNat_valid _ (Or.inl (by omega))]
    omega
  · rw [toLower_eq_of_not_upper h, toLower_eq_of_not_upper h]

theorem isAlpha_toLower {c : Char} (h : c.isAlpha = true) :
    (Char.toLower c).isAlpha = true := by
  by_cases hu : 65 ≤ c.toNat ∧ c.toNat ≤ 90
  · rw [toLower_eq_of_upper hu]
    rw [isAlpha_toNat, toNat_ofNat_valid _ (Or.inl (by omega))]
    right
    omega
  · rw [toLower_eq_of_not_upper hu]
    exact h

theorem schemeCharOK_toLower {c : Char} (h : schemeCharOK c = true) :
    schemeCharOK (Char.toLower c) = true := by
  by_cases hu : 65 ≤ c.toNat ∧ c.toNat ≤ 90
  · unfold schemeCharOK
    rw [toLower_eq_of_upper hu]
    have : (Char.ofNat (c.toNat + 32)).isAlpha = true := by
      rw [isAlpha_toNat, toNat_ofNat_valid _ (Or.inl (by omega))]
      right
      omega
    simp [this]
  · rw [toLower_eq_of_not_upper hu]
    exact h

theorem map_toLower_idem (a : List Char) :
    (a.map Char.toLower).map Char.toLower = a.map Char.toLower := by
  induction a with
  | nil => rfl
  | cons c rest ih =>
    simp only [List.map_cons, toLower_idem, ih]

theorem schemeOK_map_toLower {a : List Char} (h : schemeOK a = true) :
    schemeOK (a.map Char.toLower) = true := by
  cases a with
  | nil => simp [schemeOK] at h
  | cons c rest =>
    unfold schemeOK at h ⊢
    simp only [Bool.and_eq_true, List.all_eq_true] at h
    simp only [List.map_cons, Bool.and_eq_true, List.all_eq_true]
    constructor
    · exact isAlpha_toLower h.1
    · intro x hx
      rcases List.mem_cons.mp hx with hx | hx
      · subst hx
        exact schemeCharOK_toLower (h.2 c (by simp))
      · rw [List.mem_map] at hx
        obtain ⟨y, hy, he⟩ := hx
        subst he
        exact schemeCharOK_toLower (h.2 y (by simp [hy]))

theorem not_mem_of_schemeOK {a : List Char} (h : schemeOK a = true) {d : Char}
    (hd : schemeCharOK d = false) : d ∉ a := by
  intro hmem
  cases a with
  | nil => simp at hmem
  | cons c rest =>
    unfold schemeOK at h
    simp only [Bool.and_eq_true, List.all_eq_true] at h
    have := h.2 d (by simpa using hmem)
    rw [hd] at this
    exact absurd this (by simp)

theorem schemeOK_false_of_mem {a : List Char} {c : Char} (hc : c ∈ a)
    (h : schemeCharOK c = false) : schemeOK a = false := by
  cases a with
  | nil => rfl
  | cons x xs =>
    unfold schemeOK
    have hall : (x :: xs).all schemeCharOK = false := by
      rw [List.all_eq_false]
      exact ⟨c, hc, by simp [h]⟩
    simp [hall]

end Scrape

namespace Scrape

/-! ### Parse-side facts about `urlsplit` components -/

/-- No prefix of `p` ending at its first `:` is a valid scheme. -/
def firstColonDirty (p : List Char) : Prop :=
  ∀ a b, splitFirst ':' p = (a, some b) → schemeOK a = false

theorem splitFirst_fst_not_mem (c : Char) (l : List Char) : c ∉ (splitFirst c l).1 := by
  cases hsf : splitFirst c l with
  | mk a ob =>
    cases ob with
    | none => exact (splitFirst_eq_none hsf).1 ▸ (splitFirst_eq_none hsf).2
    | some b => exact (splitFirst_eq_some hsf).2

theorem splitFirst_fst_prefix (c : Char) (l : List Char) :
    ∃ t, l = (splitFirst c l).1 ++ t := by
  cases hsf : splitFirst c l with
  | mk a ob =>
    cases ob with
    | none => exact ⟨[], by simp [(splitFirst_eq_none hsf).1]⟩
    | some b => exact ⟨c :: b, (splitFirst_eq_some hsf).1⟩

theorem splitFirst_cons_eq (c : Char) (t : List Char) :
    splitFirst c (c :: t) = ([], some t) := by
  simp [splitFirst]

theorem splitFirst_cons_ne {c x : Char} (h : x ≠ c) (t : List Char) :
    splitFirst c (x :: t) = (x :: (splitFirst c t).1, (splitFirst c t).2) := by
  simp [splitFirst, h]

theorem spanNone_fst {p : Char → Bool} (l : List Char) :
    ∀ c ∈ (spanNone p l).1, p c = false := by
  induction l with
  | nil => simp [spanNone]
  | cons x xs ih =>
    by_cases hx : p x
    · simp [spanNone, hx]
    · intro c hc
      rw [show spanNone p (x :: xs) = (x :: (spanNone p xs).1, (spanNone p xs).2) by
        simp [spanNone, hx]] at hc
      rcases List.mem_cons.mp hc with hc | hc
      · subst hc
        simpa using hx
      · exact ih c hc

theorem spanNone_snd_head {p : Char → Bool} (l : List Char) :
    (spanNone p l).2 = [] ∨ ∃ d t, (spanNone p l).2 = d :: t ∧ p d = true := by
  induction l with
  | nil => simp [spanNone]
  | cons x xs ih =>
    by_cases hx : p x
    · right
      exact ⟨x, xs, by simp [spanNone, hx], hx⟩
    · rw [show spanNone p (x :: xs) = (x :: (spanNone p xs).1, (spanNone p xs).2) by
        simp [spanNone, hx]]
      exact ih

theorem firstColonDirty_prefix {l p t : List Char} (h : firstColonDirty l)
    (he : l = p ++ t) : firstColonDirty p := by
  intro a b hsf
  obtain ⟨hdec, hna⟩ := splitFirst_eq_some hsf
  apply h a (b ++ t)
  rw [he, hdec]
  rw [show (a ++ ':' :: b) ++ t = a ++ ':' :: (b ++ t) by simp]
  exact splitFirst_append hna

theorem firstColonDirty_slash {p : List Char} (h : p = [] ∨ p.take 1 = ['/']) :
    firstColonDirty p := by
  intro a b hsf
  obtain ⟨hdec, hna⟩ := splitFirst_eq_some hsf
  rcases h with h | h
  · subst h
    exact absurd hdec.symm (by simp)
  · cases p with
    | nil => simp at h
    | cons x p' =>
      simp only [List.take_succ_cons, List.take_zero] at h
      have hx : x = '/' := by
        injection h
      subst hx
      cases a with
      | nil =>
        rw [List.nil_append] at hdec
        injection hdec with h1 h2
        exact absurd h1 (by decide)
      | cons y a' =>
        rw [List.cons_append] at hdec
        injection hdec with h1 h2
        subst h1
        exact schemeOK_false_of_mem (c := '/') (by simp) (by decide)

theorem firstColonDirty_append {p : List Char} (hp : firstColonDirty p)
    {d : Char} (hd : schemeCharOK d = false) (hdc : d ≠ ':') (t : List Char) :
    firstColonDirty (p ++ d :: t) := by
  intro a b hsf
  by_cases hcp : ':' ∈ p
  · cases hsp : splitFirst ':' p with
    | mk a0 ob0 =>
      cases ob0 with
      | none => exact absurd hcp (splitFirst_eq_none hsp).2
      | some b0 =>
        obtain ⟨hdec, hna⟩ := splitFirst_eq_some hsp
        have htot : splitFirst ':' (p ++ d :: t) = (a0, some (b0 ++ d :: t)) := by
          rw [hdec]
          rw [show (a0 ++ ':' :: b0) ++ d :: t = a0 ++ ':' :: (b0 ++ d :: t) by simp]
          exact splitFirst_append hna
        rw [htot] at hsf
        injection hsf with h1 h2
        subst h1
        exact hp a0 b0 hsp
  · have hsplit := splitFirst_append_left (c := ':') (d :: t) hcp
    rw [splitFirst_cons_ne hdc] at hsplit
    rw [hsplit] at hsf
    injection hsf with h1 h2
    subst h1
    exact schemeOK_false_of_mem (c := d) (by simp) hd

theorem splitScheme_of_dirty {body : List Char} (h : firstColonDirty body) :
    splitSchemeL body = ([], body) := by
  cases hsf : splitFirst ':' body with
  | mk a ob =>
    cases ob with
    | none => simp [splitSchemeL, hsf]
    | some b => simp [splitSchemeL, hsf, h a b hsf]

theorem splitSchemeL_cases (l : List Char) :
    (splitSchemeL l = ([], l) ∧ firstColonDirty l) ∨
    (∃ a b, splitFirst ':' l = (a, some b) ∧ schemeOK a = true ∧
      splitSchemeL l = (a.map Char.toLower, b)) := by
  cases hsf : splitFirst ':' l with
  | mk a ob =>
    cases ob with
    | none =>
      left
      refine ⟨by simp [splitSchemeL, hsf], ?_⟩
      intro a' b' h'
      rw [hsf] at h'
      injection h' with h1 h2
      exact absurd h2 (by simp)
    | some b =>
      by_cases hok : schemeOK a = true
      · right
        refine ⟨a, b, rfl, hok, ?_⟩
        simp [splitSchemeL, hsf, hok]
      · left
        refine ⟨by simp [splitSchemeL, hsf, hok], ?_⟩
        intro a' b' h'
        rw [hsf] at h'
        injection h' with h1 h2
        subst h1
        simpa using hok

end Scrape

namespace Scrape

theorem querySplit_fst (r : List Char) : (querySplit r).1 = (splitFirst '?' r).1 := by
  unfold querySplit
  cases hsf : splitFirst '?' r with
  | mk a ob => cases ob <;> simp

theorem fragSplit_fst (r : List Char) : (fragSplit r).1 = (splitFirst '#' r).1 := by
  unfold fragSplit
  cases hsf : splitFirst '#' r with
  | mk a ob => cases ob <;> simp

theorem splitFirst_fst_mem {c : Char} {l : List Char} {x : Char}
    (h : x ∈ (splitFirst c l).1) : x ∈ l := by
  obtain ⟨t, ht⟩ := splitFirst_fst_prefix c l
  rw [ht]
  exact List.mem_append.mpr (Or.inl h)

theorem take2_slash {p : List Char} (h : p.take 2 = ['/', '/']) : p.take 1 = ['/'] := by
  cases p with
  | nil => simp at h
  | cons x p' =>
    simp only [List.take_succ_cons] at h
    injection h with h1 h2
    simp [h1]

theorem take2_cons_ne_head {x : Char} {l : List Char} (h : x ≠ '/') :
    (x :: l).take 2 ≠ ['/', '/'] := by
  intro hc
  simp only [List.take_succ_cons] at hc
  injection hc with h1 h2
  exact h h1

theorem take2_cons_cons {x y : Char} (l : List Char) :
    (x :: y :: l).take 2 = [x, y] := rfl

theorem fragSplit_of (p q fr : List Char) (hpf : '#' ∉ p) (hqf : '#' ∉ q) :
    fragSplit (p ++ '?' :: (q ++ (if fr ≠ [] then '#' :: fr else []))) =
      (p ++ '?' :: q, fr) := by
  have hno : '#' ∉ p ++ '?' :: q := by
    simp only [List.mem_append, List.mem_cons, not_or]
    exact ⟨hpf, by decide, hqf⟩
  by_cases hfr : fr = []
  · subst hfr
    rw [if_neg (by simp), List.append_nil]
    unfold fragSplit
    rw [splitFirst_of_not_mem hno]
  · rw [if_pos hfr]
    unfold fragSplit
    rw [show p ++ '?' :: (q ++ '#' :: fr) = (p ++ '?' :: q) ++ '#' :: fr by simp]
    rw [splitFirst_append hno]

theorem querySplit_of (p q : List Char) (hpq : '?' ∉ p) :
    querySplit (p ++ '?' :: q) = (p, q) := by
  unfold querySplit
  rw [splitFirst_append hpq]

theorem netlocSplit_slashes (nl rest : List Char) (hnl : ∀ c ∈ nl, isNetDelim c = false)
    (hrest : rest = [] ∨ ∃ d t, rest = d :: t ∧ isNetDelim d = true) :
    netlocSplit ('/' :: '/' :: (nl ++ rest)) = (nl, rest) := by
  unfold netlocSplit
  rw [if_pos (by rfl)]
  rw [show ('/' :: '/' :: (nl ++ rest)).drop 2 = nl ++ rest from rfl]
  rcases hrest with h | ⟨d, t, he, hd⟩
  · subst h
    rw [List.append_nil]
    exact spanNone_all hnl
  · subst he
    exact spanNone_append _ hnl hd

/-- The `urlsplit ∘ urlunsplit` roundtrip, under side conditions that hold for
components produced by `urlsplit` and a query produced by `urlencode`. -/
theorem urlunsplit_roundtrip {sch nl p q fr : List Char}
    (hsch1 : sch ≠ [] → schemeOK sch = true ∧ sch.map Char.toLower = sch)
    (hsch2 : sch = [] → firstColonDirty p)
    (hnl : ∀ c ∈ nl, isNetDelim c = false)
    (hpq : '?' ∉ p) (hpf : '#' ∉ p)
    (hqne : q ≠ []) (hqf : '#' ∉ q)
    (hslash : nl ≠ [] → p = [] ∨ p.take 1 = ['/']) :
    urlsplitL (urlunsplitL ⟨sch, nl, p, q, fr⟩) = ⟨sch, nl, p, q, fr⟩ := by
  by_cases hbranch : nl ≠ [] ∨ p.take 2 = ['/', '/']
  · -- the `//` branch of urlunsplit
    have hp0 : p = [] ∨ p.take 1 = ['/'] := by
      rcases hbranch with h | h
      · exact hslash h
      · exact Or.inr (take2_slash h)
    have hp0' : p = [] ∨ ∃ p'', p = '/' :: p'' := by
      rcases hp0 with h | h
      · exact Or.inl h
      · cases p with
        | nil => exact Or.inl rfl
        | cons x p'' =>
          simp only [List.take_succ_cons, List.take_zero] at h
          injection h with h1
          subst h1
          exact Or.inr ⟨p'', rfl⟩
    have hinner : ¬(p ≠ [] ∧ p.take 1 ≠ ['/']) := by
      rcases hp0 with h | h
      · simp [h]
      · intro hc
        exact hc.2 h
    have hbody : urlunsplitL ⟨sch, nl, p, q, fr⟩ =
        (if sch ≠ [] then
          sch ++ ':' :: ('/' :: '/' ::
            (nl ++ (p ++ '?' :: (q ++ (if fr ≠ [] then '#' :: fr else [])))))
        else '/' :: '/' ::
          (nl ++ (p ++ '?' :: (q ++ (if fr ≠ [] then '#' :: fr else []))))) := by
      simp only [urlunsplitL]
      rw [if_pos hbranch, if_neg hinner, if_pos hqne]
      split_ifs <;> simp [List.append_assoc]
    have hrest : p ++ '?' :: (q ++ (if fr ≠ [] then '#' :: fr else [])) = [] ∨
        ∃ d t, p ++ '?' :: (q ++ (if fr ≠ [] then '#' :: fr else [])) = d :: t ∧
          isNetDelim d = true := by
      rcases hp0' with h | ⟨p'', h⟩
      · subst h
        exact Or.inr ⟨'?', _, rfl, by decide⟩
      · subst h
        exact Or.inr ⟨'/', _, rfl, by decide⟩
    have hschstep : splitSchemeL (urlunsplitL ⟨sch, nl, p, q, fr⟩) =
        (sch, '/' :: '/' ::
          (nl ++ (p ++ '?' :: (q ++ (if fr ≠ [] then '#' :: fr else []))))) := by
      rw [hbody]
      by_cases hs : sch = []
      · subst hs
        rw [if_neg (by simp)]
        exact splitScheme_of_dirty (firstColonDirty_slash (Or.inr rfl))
      · rw [if_pos hs]
        have hok := hsch1 hs
        have hnotin : ':' ∉ sch := not_mem_of_schemeOK hok.1 (by decide)
        simp [splitSchemeL, splitFirst_append hnotin, hok.1, hok.2]
    have hfrag := fragSplit_of p q fr hpf hqf
    have hnet2 := netlocSplit_slashes nl _ hnl hrest
    generalize hF : (if fr ≠ [] then '#' :: fr else []) = F at hschstep hfrag hnet2
    simp [urlsplitL, hschstep, hnet2, hfrag, querySplit_of p q hpq]
  · -- plain-path branch
    push_neg at hbranch
    obtain ⟨hnl0, htake⟩ := hbranch
    subst hnl0
    have hbody : urlunsplitL ⟨sch, [], p, q, fr⟩ =
        (if sch ≠ [] then
          sch ++ ':' :: (p ++ '?' :: (q ++ (if fr ≠ [] then '#' :: fr else [])))
        else p ++ '?' :: (q ++ (if fr ≠ [] then '#' :: fr else []))) := by
      have hnotb : ¬(([] : List Char) ≠ [] ∨ p.take 2 = ['/', '/']) := by
        rw [not_or]
        exact ⟨by simp, htake⟩
      simp only [urlunsplitL]
      rw [if_neg hnotb, if_pos hqne]
      split_ifs <;> simp [List.append_assoc]
    have hbody0_take : (p ++ '?' :: (q ++ (if fr ≠ [] then '#' :: fr else []))).take 2 ≠
        ['/', '/'] := by
      cases p with
      | nil => exact take2_cons_ne_head (by decide)
      | cons x p' =>
        cases p' with
        | nil =>
          rw [show ([x] ++ '?' :: (q ++ (if fr ≠ [] then '#' :: fr else []))) =
            x :: '?' :: (q ++ (if fr ≠ [] then '#' :: fr else [])) from rfl]
          rw [take2_cons_cons]
          intro hc
          injection hc with h1 h2
          injection h2 with h2
          exact absurd h2 (by decide)
        | cons y p'' =>
          rw [show ((x :: y :: p'') ++ '?' :: (q ++ (if fr ≠ [] then '#' :: fr else []))) =
            x :: y :: (p'' ++ '?' :: (q ++ (if fr ≠ [] then '#' :: fr else []))) from rfl]
          rw [take2_cons_cons]
          intro hc
          apply htake
          rw [take2_cons_cons]
          exact hc
    have hschstep : splitSchemeL (urlunsplitL ⟨sch, [], p, q, fr⟩) =
        (sch, p ++ '?' :: (q ++ (if fr ≠ [] then '#' :: fr else []))) := by
      rw [hbody]
      by_cases hs : sch = []
      · subst hs
        rw [if_neg (by simp)]
        exact splitScheme_of_dirty
          (firstColonDirty_append (hsch2 rfl) (by decide) (by decide) _)
      · rw [if_pos hs]
        have hok := hsch1 hs
        have hnotin : ':' ∉ sch := not_mem_of_schemeOK hok.1 (by decide)
        simp [splitSchemeL, splitFirst_append hnotin, hok.1, hok.2]
    have hnet : netlocSplit (p ++ '?' :: (q ++ (if fr ≠ [] then '#' :: fr else []))) =
        ([], p ++ '?' :: (q ++ (if fr ≠ [] then '#' :: fr else []))) := by
      unfold netlocSplit
      rw [if_neg hbody0_take]
    have hfrag := fragSplit_of p q fr hpf hqf
    generalize hF : (if fr ≠ [] then '#' :: fr else []) = F at hschstep hfrag hnet
    simp [urlsplitL, hschstep, hnet, hfrag, querySplit_of p q hpq]

end Scrape

namespace Scrape

/-! ### `_splitparams` recombination facts -/

theorem splitLast_eq_none {c : Char} {l : List Char} (h : splitLast c l = none) : c ∉ l := by
  induction l with
  | nil => simp
  | cons x xs ih =>
    rw [splitLast] at h
    cases hx : splitLast c xs with
    | some ab =>
      obtain ⟨a, b⟩ := ab
      rw [hx] at h
      simp at h
    | none =>
      rw [hx] at h
      by_cases hxc : x = c
      · rw [if_pos hxc] at h
        simp at h
      · rw [if_neg hxc] at h
        intro hmem
        rcases List.mem_cons.mp hmem with he | he
        · exact hxc he.symm
        · exact ih hx he

theorem splitLast_eq_some {c : Char} {l a b : List Char}
    (h : splitLast c l = some (a, b)) : l = a ++ c :: b ∧ c ∉ b := by
  induction l generalizing a with
  | nil => simp [splitLast] at h
  | cons x xs ih =>
    rw [splitLast] at h
    cases hx : splitLast c xs with
    | some ab =>
      obtain ⟨a0, b0⟩ := ab
      rw [hx] at h
      simp only [Option.some.injEq, Prod.mk.injEq] at h
      obtain ⟨h1, h2⟩ := h
      subst h2
      obtain ⟨e1, e2⟩ := ih hx
      rw [← h1]
      constructor
      · rw [e1]
        rfl
      · exact e2
    | none =>
      rw [hx] at h
      by_cases hxc : x = c
      · rw [if_pos hxc] at h
        simp only [Option.some.injEq, Prod.mk.injEq] at h
        obtain ⟨h1, h2⟩ := h
        subst hxc
        rw [← h1, ← h2]
        exact ⟨rfl, splitLast_eq_none hx⟩
      · rw [if_neg hxc] at h
        exact absurd h (by simp)

end Scrape

namespace Scrape

theorem pathParams_recombine (p : List Char) :
    recombineParams (pathParams p).1 (pathParams p).2 = p ∨
      ((pathParams p).2 = [] ∧ p = (pathParams p).1 ++ [';']) := by
  unfold pathParams
  by_cases hin : ';' ∈ p
  · rw [if_pos hin]
    unfold splitParamsCore
    split
    · next a b hsl =>
      obtain ⟨hpd, hnb⟩ := splitLast_eq_some hsl
      split
      · next b1 b2 hsf =>
        obtain ⟨hbd, hnb1⟩ := splitFirst_eq_some hsf
        simp only []
        by_cases hb2 : b2 = []
        · subst hb2
          right
          refine ⟨rfl, ?_⟩
          rw [hpd, hbd]
          simp
        · left
          rw [show recombineParams (a ++ '/' :: b1) b2 = (a ++ '/' :: b1) ++ ';' :: b2
            from by simp [recombineParams, hb2]]
          rw [hpd, hbd]
          simp
      · next b1 hsf =>
        left
        simp [recombineParams]
    · next hsl =>
      split
      · next l1 l2 hsf =>
        obtain ⟨hpd, hnl1⟩ := splitFirst_eq_some hsf
        simp only []
        by_cases hl2 : l2 = []
        · subst hl2
          right
          exact ⟨rfl, hpd⟩
        · left
          rw [show recombineParams l1 l2 = l1 ++ ';' :: l2 from by
            simp [recombineParams, hl2]]
          rw [hpd]
      · next l1 hsf =>
        left
        simp [recombineParams]
  · rw [if_neg hin]
    left
    simp [recombineParams]

end Scrape

namespace Scrape

theorem splitParamsCore_ss {l a b b1 b2 : List Char}
    (h1 : splitLast '/' l = some (a, b)) (h2 : splitFirst ';' b = (b1, some b2)) :
    splitParamsCore l = (a ++ '/' :: b1, b2) := by
  unfold splitParamsCore
  split
  · next a' b' hsl =>
    rw [h1] at hsl
    simp only [Option.some.injEq, Prod.mk.injEq] at hsl
    obtain ⟨rfl, rfl⟩ := hsl
    split
    · next b1' b2' hsf =>
      rw [h2] at hsf
      simp only [Prod.mk.injEq, Option.some.injEq] at hsf
      obtain ⟨rfl, rfl⟩ := hsf
      rfl
    · next hsf =>
      rw [h2] at hsf
      simp at hsf
  · next hsl =>
    rw [h1] at hsl
    simp at hsl

theorem splitParamsCore_sn {l a b b1 : List Char}
    (h1 : splitLast '/' l = some (a, b)) (h2 : splitFirst ';' b = (b1, none)) :
    splitParamsCore l = (l, []) := by
  unfold splitParamsCore
  split
  · next a' b' hsl =>
    rw [h1] at hsl
    simp only [Option.some.injEq, Prod.mk.injEq] at hsl
    obtain ⟨rfl, rfl⟩ := hsl
    split
    · next b1' b2' hsf =>
      rw [h2] at hsf
      simp at hsf
    · next hsf =>
      rfl
  · next hsl =>
    rw [h1] at hsl
    simp at hsl

theorem splitParamsCore_ns {l l1 l2 : List Char}
    (h1 : splitLast '/' l = none) (h2 : splitFirst ';' l = (l1, some l2)) :
    splitParamsCore l = (l1, l2) := by
  unfold splitParamsCore
  split
  · next a' b' hsl =>
    rw [h1] at hsl
    simp at hsl
  · next hsl =>
    split
    · next l1' l2' hsf =>
      rw [h2] at hsf
      simp only [Prod.mk.injEq, Option.some.injEq] at hsf
      obtain ⟨rfl, rfl⟩ := hsf
      rfl
    · next hsf =>
      rw [h2] at hsf
      simp at hsf

theorem splitParamsCore_nn {l l1 : List Char}
    (h1 : splitLast '/' l = none) (h2 : splitFirst ';' l = (l1, none)) :
    splitParamsCore l = (l, []) := by
  unfold splitParamsCore
  split
  · next a' b' hsl =>
    rw [h1] at hsl
    simp at hsl
  · next hsl =>
    split
    · next l1' l2' hsf =>
      rw [h2] at hsf
      simp at hsf
    · next hsf =>
      rfl

theorem pathParams_of_not_mem {p : List Char} (h : ';' ∉ p) : pathParams p = (p, []) := by
  unfold pathParams
  rw [if_neg h]

theorem pathParams_of_mem {p : List Char} (h : ';' ∈ p) :
    pathParams p = splitParamsCore p := by
  unfold pathParams
  rw [if_pos h]

theorem pathParams_fst (p : List Char) :
    pathParams (pathParams p).1 = ((pathParams p).1, []) := by
  by_cases hin : ';' ∈ p
  · rw [pathParams_of_mem hin]
    unfold splitParamsCore
    split
    · next a b hsl =>
      obtain ⟨hpd, hnb⟩ := splitLast_eq_some hsl
      split
      · next b1 b2 hsf =>
        obtain ⟨hbd, hnb1⟩ := splitFirst_eq_some hsf
        show pathParams (a ++ '/' :: b1) = (a ++ '/' :: b1, [])
        have hb1s : '/' ∉ b1 := by
          intro hm
          exact hnb (hbd ▸ List.mem_append.mpr (Or.inl hm))
        by_cases hin2 : ';' ∈ a ++ '/' :: b1
        · rw [pathParams_of_mem hin2]
          exact splitParamsCore_sn (splitLast_append hb1s) (splitFirst_of_not_mem hnb1)
        · exact pathParams_of_not_mem hin2
      · next b1 hsf =>
        show pathParams p = (p, [])
        rw [pathParams_of_mem hin]
        exact splitParamsCore_sn hsl hsf
    · next hsl =>
      split
      · next l1 l2 hsf =>
        obtain ⟨hpd, hnl1⟩ := splitFirst_eq_some hsf
        show pathParams l1 = (l1, [])
        have hnotin : ';' ∉ l1 := by
          intro hm
          exact hnl1 hm
        exact pathParams_of_not_mem hnotin
      · next hsf =>
        show pathParams p = (p, [])
        rw [pathParams_of_mem hin]
        exact splitParamsCore_nn hsl hsf
  · rw [pathParams_of_not_mem hin]
    exact pathParams_of_not_mem hin

theorem pathParams_stable (p : List Char) :
    pathParams (recombineParams (pathParams p).1 (pathParams p).2) = pathParams p := by
  rcases pathParams_recombine p with h | ⟨h2, _⟩
  · rw [h]
  · rw [h2]
    rw [show recombineParams (pathParams p).1 [] = (pathParams p).1 from by
      simp [recombineParams]]
    rw [pathParams_fst p, ← h2]

end Scrape

namespace Scrape

/-! ### Facts about the components produced by `urlsplitL` -/

theorem urlsplit_scheme_fact (l : List Char) :
    (urlsplitL l).scheme ≠ [] →
      schemeOK (urlsplitL l).scheme = true ∧
        (urlsplitL l).scheme.map Char.toLower = (urlsplitL l).scheme := by
  intro hne
  have hs : (urlsplitL l).scheme = (splitSchemeL l).1 := rfl
  rcases splitSchemeL_cases l with ⟨h1, _⟩ | ⟨a, b, hsf, hok, h1⟩
  · rw [hs, h1] at hne
    simp at hne
  · rw [hs, h1]
    exact ⟨schemeOK_map_toLower hok, map_toLower_idem a⟩

theorem urlsplit_netloc_fact (l : List Char) :
    ∀ c ∈ (urlsplitL l).netloc, isNetDelim c = false := by
  intro c hc
  have hs : (urlsplitL l).netloc = (netlocSplit (splitSchemeL l).2).1 := rfl
  rw [hs] at hc
  unfold netlocSplit at hc
  by_cases ht : ((splitSchemeL l).2).take 2 = ['/', '/']
  · rw [if_pos ht] at hc
    exact spanNone_fst _ c hc
  · rw [if_neg ht] at hc
    simp at hc

theorem urlsplit_path_no_q (l : List Char) : '?' ∉ (urlsplitL l).path := by
  have hs : (urlsplitL l).path
      = (querySplit (fragSplit (netlocSplit (splitSchemeL l).2).2).1).1 := rfl
  rw [hs, querySplit_fst]
  exact splitFirst_fst_not_mem '?' _

theorem urlsplit_path_no_f (l : List Char) : '#' ∉ (urlsplitL l).path := by
  have hs : (urlsplitL l).path
      = (querySplit (fragSplit (netlocSplit (splitSchemeL l).2).2).1).1 := rfl
  rw [hs, querySplit_fst]
  intro hmem
  have h2 : '#' ∈ (fragSplit (netlocSplit (splitSchemeL l).2).2).1 :=
    splitFirst_fst_mem hmem
  rw [fragSplit_fst] at h2
  exact splitFirst_fst_not_mem '#' _ h2

theorem urlsplit_query_no_f (l : List Char) : '#' ∉ (urlsplitL l).query := by
  have hs : (urlsplitL l).query
      = (querySplit (fragSplit (netlocSplit (splitSchemeL l).2).2).1).2 := rfl
  rw [hs]
  unfold querySplit
  intro hmem
  cases hsf : splitFirst '?' (fragSplit (netlocSplit (splitSchemeL l).2).2).1 with
  | mk a ob =>
    cases ob with
    | none =>
      rw [hsf] at hmem
      simp at hmem
    | some b =>
      rw [hsf] at hmem
      obtain ⟨hdec, _⟩ := splitFirst_eq_some hsf
      have h2 : '#' ∈ (fragSplit (netlocSplit (splitSchemeL l).2).2).1 := by
        rw [hdec]
        exact List.mem_append.mpr (Or.inr (List.mem_cons.mpr (Or.inr hmem)))
      rw [fragSplit_fst] at h2
      exact splitFirst_fst_not_mem '#' _ h2

theorem path_head_of_rest {rest : List Char}
    (h : rest = [] ∨ ∃ d t, rest = d :: t ∧ isNetDelim d = true) :
    (querySplit (fragSplit rest).1).1 = [] ∨
      ((querySplit (fragSplit rest).1).1).take 1 = ['/'] := by
  rcases h with h | ⟨d, t, hdt, hd⟩
  · subst h
    left
    rfl
  · subst hdt
    have hd3 : d = '/' ∨ d = '?' ∨ d = '#' := by
      unfold isNetDelim at hd
      simp only [Bool.or_eq_true, beq_iff_eq] at hd
      tauto
    rcases hd3 with rfl | rfl | rfl
    · right
      simp [querySplit_fst, fragSplit_fst,
        splitFirst_cons_ne (show ('/' : Char) ≠ '#' by decide),
        splitFirst_cons_ne (show ('/' : Char) ≠ '?' by decide)]
    · left
      simp [querySplit_fst, fragSplit_fst,
        splitFirst_cons_ne (show ('?' : Char) ≠ '#' by decide),
        splitFirst_cons_eq]
    · left
      simp [querySplit_fst, fragSplit_fst, splitFirst_cons_eq, splitFirst]

theorem urlsplit_slash_fact (l : List Char) :
    (urlsplitL l).netloc ≠ [] →
      (urlsplitL l).path = [] ∨ (urlsplitL l).path.take 1 = ['/'] := by
  intro hne
  have hnl : (urlsplitL l).netloc = (netlocSplit (splitSchemeL l).2).1 := rfl
  have hp : (urlsplitL l).path
      = (querySplit (fragSplit (netlocSplit (splitSchemeL l).2).2).1).1 := rfl
  by_cases ht : ((splitSchemeL l).2).take 2 = ['/', '/']
  · have h2 : (netlocSplit (splitSchemeL l).2).2
        = (spanNone isNetDelim (((splitSchemeL l).2).drop 2)).2 := by
      unfold netlocSplit
      rw [if_pos ht]
    rw [hp, h2]
    exact path_head_of_rest (spanNone_snd_head _)
  · exfalso
    apply hne
    rw [hnl]
    unfold netlocSplit
    rw [if_neg ht]

theorem urlsplit_dirty_fact (l : List Char) :
    (urlsplitL l).scheme = [] → firstColonDirty (urlsplitL l).path := by
  intro hsch
  have hp : (urlsplitL l).path
      = (querySplit (fragSplit (netlocSplit (splitSchemeL l).2).2).1).1 := rfl
  by_cases ht : ((splitSchemeL l).2).take 2 = ['/', '/']
  · have h2 : (netlocSplit (splitSchemeL l).2).2
        = (spanNone isNetDelim (((splitSchemeL l).2).drop 2)).2 := by
      unfold netlocSplit
      rw [if_pos ht]
    rw [hp, h2]
    exact firstColonDirty_slash (path_head_of_rest (spanNone_snd_head _))
  · have h2 : (netlocSplit (splitSchemeL l).2).2 = (splitSchemeL l).2 := by
      unfold netlocSplit
      rw [if_neg ht]
    rw [hp, h2]
    have hdirty : firstColonDirty (splitSchemeL l).2 := by
      rcases splitSchemeL_cases l with ⟨h1, hd⟩ | ⟨a, b, hsf, hok, h1⟩
      · rw [h1]
        exact hd
      · exfalso
        have hmap : (urlsplitL l).scheme = a.map Char.toLower := by
          rw [show (urlsplitL l).scheme = (splitSchemeL l).1 from rfl, h1]
        rw [hmap] at hsch
        have ha : a = [] := by
          cases a with
          | nil => rfl
          | cons x xs => simp at hsch
        subst ha
        simp [schemeOK] at hok
    rw [querySplit_fst, fragSplit_fst]
    obtain ⟨t1, ht1⟩ := splitFirst_fst_prefix '#' (splitSchemeL l).2
    have hdirty2 : firstColonDirty (splitFirst '#' (splitSchemeL l).2).1 :=
      firstColonDirty_prefix hdirty ht1
    obtain ⟨t2, ht2⟩ := splitFirst_fst_prefix '?' (splitFirst '#' (splitSchemeL l).2).1
    exact firstColonDirty_prefix hdirty2 ht2

end Scrape

namespace Scrape

/-! ### `str` on integers (`str(page)` and friends) -/

/-- Decimal digits of `n`, most significant first, pushed onto `acc`
(fuel-indexed so that it evaluates by kernel reduction; `n + 1` units of
fuel always suffice since `n` strictly decreases). -/
def natStrGo : Nat → Nat → List Char → List Char
  | 0, _, acc => acc
  | fuel + 1, n, acc =>
    if n = 0 then acc
    else natStrGo fuel (n / 10) (Char.ofNat (48 + n % 10) :: acc)

def natStr (n : Nat) : List Char :=
  if n = 0 then ['0'] else natStrGo (n + 1) n []

/-- Python `str` on an `int`. -/
def pyStr (n : Int) : List Char :=
  if n < 0 then '-' :: natStr (-n).toNat else natStr n.toNat

theorem natStrGo_ne_nil : ∀ (fuel n : Nat) (acc : List Char), acc ≠ [] →
    natStrGo fuel n acc ≠ [] := by
  intro fuel
  induction fuel with
  | zero =>
    intro n acc h
    exact h
  | succ fuel ih =>
    intro n acc h
    rw [natStrGo]
    by_cases hn : n = 0
    · rw [if_pos hn]
      exact h
    · rw [if_neg hn]
      exact ih (n / 10) _ (by simp)

theorem natStr_ne_nil (n : Nat) : natStr n ≠ [] := by
  unfold natStr
  by_cases h : n = 0
  · rw [if_pos h]
    simp
  · rw [if_neg h]
    rw [show natStrGo (n + 1) n []
        = if n = 0 then [] else natStrGo n (n / 10) (Char.ofNat (48 + n % 10) :: [])
      from rfl]
    rw [if_neg h]
    exact natStrGo_ne_nil n (n / 10) _ (by simp)

theorem pyStr_ne_nil (n : Int) : pyStr n ≠ [] := by
  unfold pyStr
  by_cases h : n < 0
  · rw [if_pos h]
    simp
  · rw [if_neg h]
    exact natStr_ne_nil _

end Scrape

namespace Scrape

/-! ### The source's URL helpers (`scrape_v3.py` lines 16-52) -/

def pageKey : List Char := "page".data

def idKey : List Char := "id".data

/-- `set_page_param` (lines 16-21): `urlparse` the URL, `parse_qs` its query,
assign `qs["page"] = [str(page)]`, `urlencode(qs, doseq=True)` and
`urlunparse`. -/
def set_page_param (url : List Char) (page : Int) : List Char :=
  let parts := urlparseL url
  let qs := parse_qsL parts.query
  let qs2 := dictSet qs pageKey [pyStr page]
  urlunparseL ⟨parts.scheme, parts.netloc, parts.path, parts.params,
    urlencodeL qs2, parts.frag⟩

/-- `extract_item_id` (lines 24-31): `None`/empty href gives `None`; otherwise
`parse_qs(urlparse(href).query).get("id", [None])[0]`. -/
def extract_item_id (href : Option (List Char)) : Option (List Char) :=
  match href with
  | none => none
  | some h =>
    if h = [] then none
    else
      match lookupKey (parse_qsL (urlparseL h).query) idKey with
      | some vs => vs.head?
      | none => none

/-- Value of an ASCII digit string read in base 10 (`int(digits)`). -/
def decimalVal (l : List Char) : Nat :=
  l.foldl (fun a c => 10 * a + (c.toNat - 48)) 0

/-- `clean_price` (lines 34-38): falsy text gives `None`; otherwise drop every
non-digit character (`re.sub(r"[^\d]", "", text)`, digits modelled as ASCII
decimal digits) and parse the remainder, `None` when no digit remains. -/
def clean_price (text : Option (List Char)) : Option Nat :=
  match text with
  | none => none
  | some t =>
    if t = [] then none
    else
      let digits := t.filter Char.isDigit
      if digits = [] then none else some (decimalVal digits)

/-- `normalize_detail_url` (lines 41-52): falsy URL gives `None`; otherwise
`urlsplit`, `parse_qs` the query, `urlencode(q, doseq=True)` and `urlunsplit`
with an empty fragment. -/
def normalize_detail_url (u : Option (List Char)) : Option (List Char) :=
  match u with
  | none => none
  | some l =>
    if l = [] then none
    else
      let s := urlsplitL l
      let q := parse_qsL s.query
      let q_str := urlencodeL q
      some (urlunsplitL ⟨s.scheme, s.netloc, s.path, q_str, []⟩)

end Scrape

namespace Scrape

/-! ### `urljoin` (CPython `urllib.parse`) -/

/-- `urlsplit(url, scheme)`: the default scheme is used when the URL carries
none of its own. -/
def urlsplitDef (l dflt : List Char) : USplit :=
  let u := urlsplitL l
  if u.scheme = [] then ⟨dflt, u.netloc, u.path, u.query, u.frag⟩ else u

def urlparseDef (l dflt : List Char) : UParse :=
  let u := urlsplitDef l dflt
  let pp := if u.scheme ∈ uses_params then pathParams u.path else (u.path, [])
  ⟨u.scheme, u.netloc, pp.1, pp.2, u.query, u.frag⟩

def uses_relative : List (List Char) :=
  [[], "ftp".data, "http".data, "gopher".data, "nntp".data, "imap".data,
    "wais".data, "file".data, "https".data, "shttp".data, "mms".data,
    "prospero".data, "rtsp".data, "rtspu".data, "sftp".data, "svn".data,
    "svn+ssh".data, "ws".data, "wss".data]

def uses_netloc : List (List Char) :=
  [[], "ftp".data, "http".data, "gopher".data, "nntp".data, "telnet".data,
    "imap".data, "wais".data, "file".data, "mms".data, "https".data,
    "shttp".data, "snews".data, "prospero".data, "rtsp".data, "rtspu".data,
    "rsync".data, "svn".data, "svn+ssh".data, "sftp".data, "nfs".data,
    "git".data, "git+ssh".data, "ws".data, "wss".data]

/-- `segments[1:-1] = filter(None, segments[1:-1])`. -/
def filterInner (segs : List (List Char)) : List (List Char) :=
  match segs with
  | [] => []
  | [s] => [s]
  | s :: rest => s :: ((rest.dropLast.filter (fun t => !t.isEmpty)) ++ [rest.getLastD []])

/-- The `..`/`.` resolution loop of `urljoin` (`resolved_path`). -/
def resolveSegs (segs : List (List Char)) : List (List Char) :=
  segs.foldl
    (fun acc seg =>
      if seg = ['.', '.'] then acc.dropLast
      else if seg = ['.'] then acc
      else acc ++ [seg]) []

def urljoin (base url : List Char) : List Char :=
  if base = [] then url
  else if url = [] then base
  else
    let b := urlparseDef base []
    let u := urlparseDef url b.scheme
    if u.scheme ≠ b.scheme ∨ u.scheme ∉ uses_relative then url
    else if u.scheme ∈ uses_netloc ∧ u.netloc ≠ [] then
      urlunparseL u
    else
      let netloc := if u.scheme ∈ uses_netloc then b.netloc else u.netloc
      if u.path = [] ∧ u.params = [] then
        let query := if u.query = [] then b.query else u.query
        urlunparseL ⟨u.scheme, netloc, b.path, b.params, query, u.frag⟩
      else
        let base_parts0 := splitAll '/' b.path
        let base_parts :=
          if base_parts0.getLastD [] ≠ [] then base_parts0.dropLast else base_parts0
        let segments :=
          if u.path.take 1 = ['/'] then splitAll '/' u.path
          else filterInner (base_parts ++ splitAll '/' u.path)
        let rp := resolveSegs segments
        let rp2 :=
          if segments.getLastD [] = ['.'] ∨ segments.getLastD [] = ['.', '.'] then
            rp ++ [[]]
          else rp
        let joined := joinSep '/' rp2
        urlunparseL ⟨u.scheme, netloc, (if joined = [] then ['/'] else joined),
          u.params, u.query, u.frag⟩

end Scrape

namespace Scrape

/-! ### `scrape_page` (lines 55-104): per-block extraction -/

/-- What BeautifulSoup hands the extractor for one `div.list_item_block`:
the selected tags' text/attributes, each `none` when the selector or the
attribute found nothing. `titleText`, `priceText` and `buyoutText` carry
`get_text(strip=True)` results; `relHref` is the raw `href` attribute and
`imgSrc` the raw `src` attribute. -/
structure Block where
  titleText : Option (List Char)
  priceText : Option (List Char)
  buyoutText : Option (List Char)
  relHref : Option (List Char)
  imgSrc : Option (List Char)
deriving Repr, DecidableEq

structure Item where
  item_id : Option (List Char)
  title : Option (List Char)
  price_jpy : Option Nat
  buyout_jpy : Option Nat
  detail_url : Option (List Char)
  image_url : Option (List Char)
  source_page : List Char
deriving Repr, DecidableEq

/-- Python truthiness of `str | None`. -/
def otruthy : Option (List Char) → Bool
  | none => false
  | some l => !l.isEmpty

/-- Python truthiness of `int | None` (`0` is falsy). -/
def ntruthy : Option Nat → Bool
  | none => false
  | some n => n != 0

/-- Python `str.strip()` (whitespace as Lean's `Char.isWhitespace`). -/
def pyStrip (l : List Char) : List Char :=
  ((l.dropWhile Char.isWhitespace).reverse.dropWhile Char.isWhitespace).reverse

/-- `detail_url = urljoin(page_url, rel_href) if rel_href else None`. -/
def resolvedDetailUrl (page_url : List Char) (relHref : Option (List Char)) :
    Option (List Char) :=
  match relHref with
  | some h => if h ≠ [] then some (urljoin page_url h) else none
  | none => none

/-- Lines 62-102 for one block: resolve the five fields exactly as the source
does, then emit the row iff `title or price_jpy or buyout_jpy or detail_url`. -/
def scrapeBlock (page_url : List Char) (b : Block) : Option Item :=
  let title := b.titleText
  let price_jpy := clean_price b.priceText
  let buyout_jpy := clean_price b.buyoutText
  let detail_url := resolvedDetailUrl page_url b.relHref
  let img_src : Option (List Char) :=
    match b.imgSrc with
    | some s => if s ≠ [] then some (pyStrip s) else none
    | none => none
  let image_url : Option (List Char) :=
    match img_src with
    | some s => if s ≠ [] then some (urljoin page_url s) else none
    | none => none
  let item_id := extract_item_id b.relHref
  if otruthy title || ntruthy price_jpy || ntruthy buyout_jpy || otruthy detail_url then
    some ⟨item_id, title, price_jpy, buyout_jpy, detail_url, image_url, page_url⟩
  else none

def scrape_page (page_url : List Char) (blocks : List Block) : List Item :=
  blocks.filterMap (scrapeBlock page_url)

end Scrape

namespace Scrape

/-! ### `main` (lines 117-270): start page, dedup ledger, formulas, loop -/

/-- Python `int(s)` on a string: strip whitespace, optional sign, then ASCII
decimal digits; anything else raises (modelled as `none`). -/
def pyInt (l : List Char) : Option Int :=
  let t := pyStrip l
  match t with
  | '-' :: ds =>
    if ds ≠ [] ∧ ds.all Char.isDigit then some (-(decimalVal ds : Int)) else none
  | '+' :: ds =>
    if ds ≠ [] ∧ ds.all Char.isDigit then some (decimalVal ds : Int) else none
  | ds =>
    if ds ≠ [] ∧ ds.all Char.isDigit then some (decimalVal ds : Int) else none

/-- Lines 143-147: `start_page = int(parse_qs(urlparse(start_url).query)
.get("page", ["1"])[0])`, any exception giving `1`. -/
def start_page_of (start_url : List Char) : Int :=
  match lookupKey (parse_qsL (urlparseL start_url).query) pageKey with
  | some vs =>
    match vs.head? with
    | some v => (pyInt v).getD 1
    | none => 1
  | none => 1

def IMG_PX : Nat := 160

/-- Line 229. -/
def imagePreviewFormula (excel_row : Nat) : List Char :=
  "=IF(LEN(F".data ++ natStr excel_row ++ "),IMAGE(F".data ++ natStr excel_row
    ++ ",\"\",3,".data ++ natStr IMG_PX ++ ",".data ++ natStr IMG_PX
    ++ "),\"\")".data

/-- Line 230. -/
def translateFormula (excel_row : Nat) : List Char :=
  "=TRANSLATE(B".data ++ natStr excel_row ++ ",\"ja\",\"en\")".data

/-- One CSV data row as written: the item plus its two formula cells. -/
structure OutRow where
  item : Item
  image_preview : List Char
  title_en : List Char
deriving Repr, DecidableEq

/-- The loop's mutable state: the two dedup sets, the next 1-based
spreadsheet row (first data row is 2), the running count and the rows
written so far. -/
structure RunState where
  seen_item_ids : List (List Char)
  seen_detail_urls : List (List Char)
  excel_row : Nat
  total_written : Nat
  output : List OutRow
deriving Repr, DecidableEq

def initState : RunState := ⟨[], [], 2, 0, []⟩

/-- Line 208: `iid = (row.get("item_id") or "").strip() or None`. -/
def iidOf (row : Item) : Option (List Char) :=
  let s := pyStrip (row.item_id.getD [])
  if s = [] then none else some s

/-- Lines 212-216: the in-order duplicate test. -/
def dupCheck (st : RunState) (iid norm_url : Option (List Char)) : Bool :=
  if otruthy iid then decide (iid.getD [] ∈ st.seen_item_ids)
  else if otruthy norm_url then decide (norm_url.getD [] ∈ st.seen_detail_urls)
  else false

/-- Lines 206-257 for one candidate row: skip duplicates; otherwise mark the
identifier seen (or, with no identifier, the normalized URL), attach the two
formulas for the current `excel_row` and append the row. -/
def processRow (st : RunState) (row : Item) : RunState :=
  let iid := iidOf row
  let norm_url := normalize_detail_url row.detail_url
  if dupCheck st iid norm_url then st
  else
    let ids' := if otruthy iid then iid.getD [] :: st.seen_item_ids
      else st.seen_item_ids
    let urls' :=
      if !otruthy iid && otruthy norm_url then norm_url.getD [] :: st.seen_detail_urls
      else st.seen_detail_urls
    ⟨ids', urls', st.excel_row + 1, st.total_written + 1,
      st.output ++ [⟨row, imagePreviewFormula st.excel_row,
        translateFormula st.excel_row⟩]⟩

def processItems (st : RunState) (items : List Item) : RunState :=
  items.foldl processRow st

/-- What one iteration's fetch+parse (`scrape_page(session, page_url)`) can
come to: a scraped item list, `requests.HTTPError`, or any other exception. -/
inductive FetchOutcome where
  | ok (items : List Item)
  | httpError
  | otherError
deriving Repr, DecidableEq

/-- Line 262: `pages is not None and page >= start_page + pages - 1`. -/
def budgetStop (pages : Option Int) (start_page page : Int) : Bool :=
  match pages with
  | some b => decide (start_page + b - 1 ≤ page)
  | none => false

/-- The `while True` loop (lines 185-265), fuel-indexed. Returns the pages
fetched in order, the final state, and whether the loop exited by `break`
(rather than running out of fuel). -/
def mainLoop (fetch : Int → FetchOutcome) (until_empty : Bool)
    (pages : Option Int) (start_page : Int) :
    Nat → Int → RunState → List Int × RunState × Bool
  | 0, _, st => ([], st, false)
  | fuel + 1, page, st =>
    match fetch page with
    | .httpError => ([page], st, true)
    | .otherError => ([page], st, true)
    | .ok items =>
      if items = [] ∧ until_empty = true then ([page], st, true)
      else
        let st2 := processItems st items
        if budgetStop pages start_page page then ([page], st2, true)
        else
          let r := mainLoop fetch until_empty pages start_page fuel (page + 1) st2
          (page :: r.1, r.2.1, r.2.2)

/-- `main`: derive the start page from the start URL and run the loop from a
fresh state. -/
def main (fetch : Int → FetchOutcome) (start_url : List Char)
    (pages : Option Int) (until_empty : Bool) (fuel : Nat) :
    List Int × RunState × Bool :=
  let start_page := start_page_of start_url
  mainLoop fetch until_empty pages start_page fuel start_page initState

end Scrape

namespace Scrape

/-! ### Ledger lemmas -/

theorem otruthy_some {l : List Char} (h : l ≠ []) : otruthy (some l) = true := by
  cases l with
  | nil => exact absurd rfl h
  | cons x xs => rfl

theorem iidOf_ne_nil {row : Item} {i : List Char} (h : iidOf row = some i) :
    i ≠ [] := by
  simp only [iidOf] at h
  by_cases h1 : pyStrip (row.item_id.getD []) = []
  · rw [if_pos h1] at h
    simp at h
  · rw [if_neg h1] at h
    injection h with h2
    rw [← h2]
    exact h1

theorem processRow_dup {st : RunState} {row : Item}
    (h : dupCheck st (iidOf row) (normalize_detail_url row.detail_url) = true) :
    processRow st row = st := by
  simp only [processRow]
  rw [if_pos h]

theorem processRow_novel {st : RunState} {row : Item}
    (h : dupCheck st (iidOf row) (normalize_detail_url row.detail_url) = false) :
    processRow st row =
      ⟨(if otruthy (iidOf row) then (iidOf row).getD [] :: st.seen_item_ids
          else st.seen_item_ids),
        (if !otruthy (iidOf row) && otruthy (normalize_detail_url row.detail_url)
          then (normalize_detail_url row.detail_url).getD [] :: st.seen_detail_urls
          else st.seen_detail_urls),
        st.excel_row + 1, st.total_written + 1,
        st.output ++ [⟨row, imagePreviewFormula st.excel_row,
          translateFormula st.excel_row⟩]⟩ := by
  simp only [processRow]
  rw [if_neg (by simp [h])]

theorem mem_ids_processRow {st : RunState} {row : Item} {i : List Char}
    (h : i ∈ st.seen_item_ids) : i ∈ (processRow st row).seen_item_ids := by
  cases hdc : dupCheck st (iidOf row) (normalize_detail_url row.detail_url) with
  | true =>
    rw [processRow_dup hdc]
    exact h
  | false =>
    rw [processRow_novel hdc]
    show i ∈ (if otruthy (iidOf row) then (iidOf row).getD [] :: st.seen_item_ids
      else st.seen_item_ids)
    by_cases ht : otruthy (iidOf row) = true
    · rw [if_pos ht]
      exact List.mem_cons.mpr (Or.inr h)
    · rw [if_neg ht]
      exact h

theorem mem_ids_processItems {items : List Item} : ∀ {st : RunState} {i : List Char},
    i ∈ st.seen_item_ids → i ∈ (processItems st items).seen_item_ids := by
  induction items with
  | nil =>
    intro st i h
    exact h
  | cons r rest ih =>
    intro st i h
    exact ih (mem_ids_processRow h)

theorem dupCheck_of_id_seen {st : RunState} {row : Item} {i : List Char}
    (hid : iidOf row = some i) (hmem : i ∈ st.seen_item_ids) :
    dupCheck st (iidOf row) (normalize_detail_url row.detail_url) = true := by
  unfold dupCheck
  rw [hid]
  rw [if_pos (otruthy_some (iidOf_ne_nil hid))]
  simpa using hmem

theorem dupCheck_of_id_new {st : RunState} {row : Item} {i : List Char}
    (hid : iidOf row = some i) (hmem : i ∉ st.seen_item_ids) :
    dupCheck st (iidOf row) (normalize_detail_url row.detail_url) = false := by
  unfold dupCheck
  rw [hid]
  rw [if_pos (otruthy_some (iidOf_ne_nil hid))]
  simpa using hmem

end Scrape

namespace Scrape

/-- Claim C1 (dedup idempotence): a candidate whose trimmed identifier is
present is admitted on its first presentation (appended to the output with
the identifier added to the identifier set), and any later candidate with
the same trimmed identifier — after any number of intervening candidates —
is classified duplicate and leaves the state unchanged (so it is not
written). -/
theorem dedup_admits_once (st : RunState) (row row2 : Item) (more : List Item)
    (i : List Char) (hid : iidOf row = some i) (hid2 : iidOf row2 = some i)
    (hnew : i ∉ st.seen_item_ids) :
    (processRow st row).output = st.output
        ++ [⟨row, imagePreviewFormula st.excel_row, translateFormula st.excel_row⟩] ∧
    i ∈ (processRow st row).seen_item_ids ∧
    processRow (processItems (processRow st row) more) row2
      = processItems (processRow st row) more := by
  have hdup := dupCheck_of_id_new hid hnew
  have hseen : i ∈ (processRow st row).seen_item_ids := by
    rw [processRow_novel hdup]
    show i ∈ (if otruthy (iidOf row) then (iidOf row).getD [] :: st.seen_item_ids
      else st.seen_item_ids)
    rw [hid, if_pos (otruthy_some (iidOf_ne_nil hid))]
    exact List.mem_cons_self _ _
  refine ⟨?_, hseen, ?_⟩
  · rw [processRow_novel hdup]
  · exact processRow_dup (dupCheck_of_id_seen hid2 (mem_ids_processItems hseen))

def itemA : Item := ⟨some "A1".data, some "t".data, none, none, none, none, []⟩

def itemA2 : Item := ⟨some "A1".data, some "u".data, none, none, none, none, []⟩

def itemB : Item := ⟨some "B1".data, some "v".data, none, none, none, none, []⟩

theorem dedup_admits_once_witness :
    iidOf itemA = some "A1".data ∧ iidOf itemA2 = some "A1".data ∧
    "A1".data ∉ initState.seen_item_ids ∧
    ((processRow initState itemA).output = initState.output
        ++ [⟨itemA, imagePreviewFormula initState.excel_row,
              translateFormula initState.excel_row⟩] ∧
      "A1".data ∈ (processRow initState itemA).seen_item_ids ∧
      processRow (processItems (processRow initState itemA) [itemB]) itemA2
        = processItems (processRow initState itemA) [itemB]) :=
  ⟨by decide, by decide, by decide,
    dedup_admits_once initState itemA itemA2 [itemB] ("A1".data)
      (by decide) (by decide) (by decide)⟩

end Scrape

namespace Scrape

/-- Claim C2 (URL-fallback gap): admitting a candidate that has both a
present trimmed identifier and a truthy normalized detail URL adds only the
identifier to the identifier set and leaves the URL set unchanged; a later
candidate with no identifier that shares only that normalized URL is then
classified novel and written. -/
theorem url_fallback_gap (st : RunState) (row1 row2 : Item) (i nu : List Char)
    (hid1 : iidOf row1 = some i)
    (hnu1 : normalize_detail_url row1.detail_url = some nu) (hnune : nu ≠ [])
    (hnew : i ∉ st.seen_item_ids)
    (hid2 : iidOf row2 = none)
    (hnu2 : normalize_detail_url row2.detail_url = some nu)
    (hnourl : nu ∉ st.seen_detail_urls) :
    (processRow st row1).seen_item_ids = i :: st.seen_item_ids ∧
    (processRow st row1).seen_detail_urls = st.seen_detail_urls ∧
    (processRow (processRow st row1) row2).output
      = (processRow st row1).output
        ++ [⟨row2, imagePreviewFormula (processRow st row1).excel_row,
              translateFormula (processRow st row1).excel_row⟩] := by
  have hdup1 := dupCheck_of_id_new hid1 hnew
  have hot1 : otruthy (iidOf row1) = true := by
    rw [hid1]
    exact otruthy_some (iidOf_ne_nil hid1)
  have hids : (processRow st row1).seen_item_ids = i :: st.seen_item_ids := by
    rw [processRow_novel hdup1]
    show (if otruthy (iidOf row1) then (iidOf row1).getD [] :: st.seen_item_ids
      else st.seen_item_ids) = i :: st.seen_item_ids
    rw [if_pos hot1, hid1]
    rfl
  have hurls : (processRow st row1).seen_detail_urls = st.seen_detail_urls := by
    rw [processRow_novel hdup1]
    show (if !otruthy (iidOf row1) && otruthy (normalize_detail_url row1.detail_url)
        then (normalize_detail_url row1.detail_url).getD [] :: st.seen_detail_urls
        else st.seen_detail_urls) = st.seen_detail_urls
    rw [if_neg (by simp [hot1])]
  refine ⟨hids, hurls, ?_⟩
  have hdup2 : dupCheck (processRow st row1) (iidOf row2)
      (normalize_detail_url row2.detail_url) = false := by
    unfold dupCheck
    rw [hid2, hnu2]
    rw [if_neg (by simp [otruthy])]
    rw [if_pos (otruthy_some hnune)]
    rw [hurls]
    simpa using hnourl
  rw [processRow_novel hdup2]

end Scrape

namespace Scrape

def row1W : Item :=
  ⟨some "X1".data, some "t".data, none, none, some "http://e/d?id=7".data, none, []⟩

def row2W : Item :=
  ⟨none, some "w".data, none, none, some "http://e/d?id=7#f".data, none, []⟩

theorem url_fallback_gap_witness :
    iidOf row1W = some "X1".data ∧
    normalize_detail_url row1W.detail_url = some "http://e/d?id=7".data ∧
    "http://e/d?id=7".data ≠ [] ∧
    "X1".data ∉ initState.seen_item_ids ∧
    iidOf row2W = none ∧
    normalize_detail_url row2W.detail_url = some "http://e/d?id=7".data ∧
    "http://e/d?id=7".data ∉ initState.seen_detail_urls ∧
    ((processRow initState row1W).seen_item_ids
        = "X1".data :: initState.seen_item_ids ∧
      (processRow initState row1W).seen_detail_urls = initState.seen_detail_urls ∧
      (processRow (processRow initState row1W) row2W).output
        = (processRow initState row1W).output
          ++ [⟨row2W, imagePreviewFormula (processRow initState row1W).excel_row,
                translateFormula (processRow initState row1W).excel_row⟩]) :=
  ⟨by decide, by decide, by decide, by decide, by decide, by decide, by decide,
    url_fallback_gap initState row1W row2W ("X1".data) ("http://e/d?id=7".data)
      (by decide) (by decide) (by decide) (by decide) (by decide) (by decide)
      (by decide)⟩

end Scrape

namespace Scrape

/-- Claim C3 (URL normalization stability), refuted as stated: the spec and
the function's docstring promise a canonical sorted-key re-encoding so that
`detail_url?b=2&a=1` and `detail_url?a=1&b=2#frag` normalize to the same
key, but `parse_qs` + `urlencode(doseq=True)` preserve first-occurrence order:
the first URL normalizes to itself while the second normalizes to
`detail_url?a=1&b=2`, two different keys. -/
theorem normalize_unsorted_cex :
    normalize_detail_url (some "detail_url?b=2&a=1".data)
        = some "detail_url?b=2&a=1".data ∧
    normalize_detail_url (some "detail_url?a=1&b=2#frag".data)
        = some "detail_url?a=1&b=2".data ∧
    some "detail_url?b=2&a=1".data ≠ some "detail_url?a=1&b=2".data := by
  refine ⟨by decide, by decide, by decide⟩

end Scrape

namespace Scrape

/-- Claim C4 counterexample: a block whose only datum is the price text
`"0"` has its current price resolved (to `0`), yet the emission check uses
Python truthiness, so the block yields nothing. -/
theorem noise_zero_price_cex :
    clean_price (some "0".data) = some 0 ∧
    scrapeBlock [] ⟨none, some "0".data, none, none, none⟩ = none := by
  refine ⟨by decide, by decide⟩

/-- Claim C4 (noise rejection), amended: a block is emitted exactly when at
least one of title, current price, buyout price or resolved detail URL is
TRUTHY (non-empty string, non-zero price); in particular a block with all
four absent yields nothing, but so does a block whose only resolved value
is a price of `0` or an empty title. -/
theorem noise_truthiness (page_url : List Char) (b : Block) :
    scrapeBlock page_url b ≠ none ↔
      (otruthy b.titleText || ntruthy (clean_price b.priceText)
        || ntruthy (clean_price b.buyoutText)
        || otruthy (resolvedDetailUrl page_url b.relHref)) = true := by
  unfold scrapeBlock
  by_cases h : (otruthy b.titleText || ntruthy (clean_price b.priceText)
      || ntruthy (clean_price b.buyoutText)
      || otruthy (resolvedDetailUrl page_url b.relHref)) = true
  · rw [if_pos h]
    simp [h]
  · rw [if_neg h]
    simp [h]

end Scrape

namespace Scrape

/-- Claim C5 (price parsing): `clean_price` yields `None` on `None`, on the
empty string and whenever no digit survives the non-digit strip; otherwise
it yields the base-10 value of the kept digits. In particular a digit-free
input never raises, `"¥1,200"` parses to `1200`, and `"no digits"` and
`""` parse to `None`. -/
theorem clean_price_spec :
    (∀ t : List Char, clean_price (some t)
        = if t = [] ∨ t.filter Char.isDigit = [] then none
          else some (decimalVal (t.filter Char.isDigit))) ∧
    clean_price none = none ∧
    clean_price (some "¥1,200".data) = some 1200 ∧
    clean_price (some "no digits".data) = none ∧
    clean_price (some "".data) = none := by
  refine ⟨?_, rfl, by decide, by decide, by decide⟩
  intro t
  show (if t = [] then none
      else if t.filter Char.isDigit = [] then none
      else some (decimalVal (t.filter Char.isDigit)))
    = if t = [] ∨ t.filter Char.isDigit = [] then none
      else some (decimalVal (t.filter Char.isDigit))
  by_cases h1 : t = []
  · rw [if_pos h1, if_pos (Or.inl h1)]
  · rw [if_neg h1]
    by_cases h2 : t.filter Char.isDigit = []
    · rw [if_pos h2, if_pos (Or.inr h2)]
    · rw [if_neg h2, if_neg (by simp [h1, h2])]

end Scrape

namespace Scrape

/-! ### Row/formula invariant -/

/-- The loop invariant tying `excel_row` to the rows already written: the
next row index is `2 + #output`, and the `k`-th written row's formulas
reference spreadsheet row `k + 2`. -/
def rowsOK (st : RunState) : Prop :=
  st.excel_row = 2 + st.output.length ∧
  ∀ k : Nat, ∀ hk : k < st.output.length,
    (st.output.get ⟨k, hk⟩).image_preview = imagePreviewFormula (k + 2) ∧
    (st.output.get ⟨k, hk⟩).title_en = translateFormula (k + 2)

theorem rowsOK_init : rowsOK initState := by
  refine ⟨rfl, ?_⟩
  intro k hk
  simp [initState] at hk

theorem rowsOK_processRow {st : RunState} (row : Item) (h : rowsOK st) :
    rowsOK (processRow st row) := by
  cases hdc : dupCheck st (iidOf row) (normalize_detail_url row.detail_url) with
  | true =>
    rw [processRow_dup hdc]
    exact h
  | false =>
    rw [processRow_novel hdc]
    obtain ⟨h1, h2⟩ := h
    constructor
    · show st.excel_row + 1 = 2 + (st.output
        ++ [(⟨row, imagePreviewFormula st.excel_row,
              translateFormula st.excel_row⟩ : OutRow)]).length
      rw [List.length_append, List.length_singleton, h1]
      omega
    · intro k hk
      show ((st.output ++ [(⟨row, imagePreviewFormula st.excel_row,
          translateFormula st.excel_row⟩ : OutRow)]).get ⟨k, hk⟩).image_preview
            = imagePreviewFormula (k + 2) ∧
        ((st.output ++ [(⟨row, imagePreviewFormula st.excel_row,
          translateFormula st.excel_row⟩ : OutRow)]).get ⟨k, hk⟩).title_en
            = translateFormula (k + 2)
      have hk' : k < (st.output
          ++ [(⟨row, imagePreviewFormula st.excel_row,
                translateFormula st.excel_row⟩ : OutRow)]).length := hk
      by_cases hlt : k < st.output.length
      · rw [List.get_eq_getElem, List.getElem_append_left hlt]
        have := h2 k hlt
        rw [List.get_eq_getElem] at this
        exact this
      · have hke : k = st.output.length := by
          rw [List.length_append, List.length_singleton] at hk'
          omega
        subst hke
        rw [List.get_eq_getElem]
        rw [List.getElem_concat_length _ _ _ rfl]
        rw [h1]
        refine ⟨?_, ?_⟩
        · show imagePreviewFormula (2 + st.output.length)
            = imagePreviewFormula (st.output.length + 2)
          rw [Nat.add_comm]
        · show translateFormula (2 + st.output.length)
            = translateFormula (st.output.length + 2)
          rw [Nat.add_comm]

theorem rowsOK_processItems (items : List Item) : ∀ st : RunState, rowsOK st →
    rowsOK (processItems st items) := by
  induction items with
  | nil =>
    intro st h
    exact h
  | cons r rest ih =>
    intro st h
    exact ih (processRow st r) (rowsOK_processRow r h)

/-- Claim C8 (formula row references): after processing any candidate
sequence from a fresh run, the `k`-th written row's two formula cells
reference spreadsheet row `k + 2` (header row 1, data from row 2);
duplicates are skipped without consuming a row position. -/
theorem formula_rows (items : List Item) (k : Nat)
    (hk : k < ((processItems initState items).output).length) :
    (((processItems initState items).output).get ⟨k, hk⟩).image_preview
        = imagePreviewFormula (k + 2) ∧
    (((processItems initState items).output).get ⟨k, hk⟩).title_en
        = translateFormula (k + 2) :=
  (rowsOK_processItems items initState rowsOK_init).2 k hk

def itemC : Item := ⟨some "C1x".data, some "z".data, none, none, none, none, []⟩

theorem formula_rows_witness :
    2 < ((processItems initState [itemA, itemB, itemA2, itemC]).output).length ∧
    ((((processItems initState [itemA, itemB, itemA2, itemC]).output).get
        ⟨2, by decide⟩).image_preview = imagePreviewFormula 4 ∧
      (((processItems initState [itemA, itemB, itemA2, itemC]).output).get
        ⟨2, by decide⟩).title_en = translateFormula 4) :=
  ⟨by decide, formula_rows [itemA, itemB, itemA2, itemC] 2 (by decide)⟩

end Scrape

namespace Scrape

/-- Claim C9 (atomic stop on fetch/parse error): if fetching or parsing the
current page raises (`HTTPError` or any other exception), the loop breaks at
once — that page is the last one attempted, the state (and with it every row
already written) is unchanged, and the loop reports a clean stop. -/
theorem fetch_error_stop (fetch : Int → FetchOutcome) (until_empty : Bool)
    (pages : Option Int) (start_page page : Int) (st : RunState) (fuel : Nat)
    (h : fetch page = .httpError ∨ fetch page = .otherError) :
    mainLoop fetch until_empty pages start_page (fuel + 1) page st
      = ([page], st, true) := by
  rcases h with h | h <;> simp [mainLoop, h]

theorem fetch_error_stop_witness :
    ((fun _ : Int => FetchOutcome.httpError) 7 = .httpError ∨
      (fun _ : Int => FetchOutcome.httpError) 7 = .otherError) ∧
    mainLoop (fun _ => FetchOutcome.httpError) false none 1 6 7 initState
      = ([7], initState, true) :=
  ⟨Or.inl rfl,
    fetch_error_stop (fun _ => FetchOutcome.httpError) false none 1 7 initState 5
      (Or.inl rfl)⟩

end Scrape

namespace Scrape

/-- Claim C7 (stop-on-empty): when the current page scrapes to zero items,
the loop with stop-on-empty enabled halts right there — before the
page-budget check, whatever the budget — without fetching another page and
without touching the state; with stop-on-empty disabled (and the budget not
yet reached) it proceeds to the next page. -/
theorem stop_on_empty (fetch : Int → FetchOutcome) (pages : Option Int)
    (start_page page : Int) (st : RunState) (fuel : Nat)
    (hfe : fetch page = .ok []) :
    mainLoop fetch true pages start_page (fuel + 1) page st = ([page], st, true) ∧
    (budgetStop pages start_page page = false →
      mainLoop fetch false pages start_page (fuel + 1) page st
        = (page :: (mainLoop fetch false pages start_page fuel (page + 1) st).1,
            (mainLoop fetch false pages start_page fuel (page + 1) st).2)) := by
  constructor
  · simp [mainLoop, hfe]
  · intro hb
    simp [mainLoop, hfe, hb, processItems]

theorem stop_on_empty_witness :
    (fun _ : Int => FetchOutcome.ok []) 5 = .ok [] ∧
    mainLoop (fun _ => FetchOutcome.ok []) true none 5 1 5 initState
      = ([5], initState, true) ∧
    (budgetStop none 5 5 = false →
      mainLoop (fun _ => FetchOutcome.ok []) false none 5 1 5 initState
        = (5 :: (mainLoop (fun _ => FetchOutcome.ok []) false none 5 0 6 initState).1,
            (mainLoop (fun _ => FetchOutcome.ok []) false none 5 0 6 initState).2)) :=
  ⟨rfl,
    (stop_on_empty (fun _ => FetchOutcome.ok []) none 5 5 initState 0 rfl).1,
    (stop_on_empty (fun _ => FetchOutcome.ok []) none 5 5 initState 0 rfl).2⟩

end Scrape

namespace Scrape

theorem mainLoop_budget_aux (fetch : Int → FetchOutcome) (until_empty : Bool)
    (start_page : Int) (b : Int)
    (hfetch : ∀ q : Int, ∃ items, fetch q = .ok items
      ∧ ¬(items = [] ∧ until_empty = true)) :
    ∀ (k : Nat) (fuel : Nat), k < fuel → ∀ (page : Int) (st : RunState),
      page + k = start_page + b - 1 →
      ((mainLoop fetch until_empty (some b) start_page fuel page st).1
          = (List.range (k + 1)).map (fun j : Nat => page + (j : Int)) ∧
        (mainLoop fetch until_empty (some b) start_page fuel page st).2.2 = true) := by
  intro k
  induction k with
  | zero =>
    intro fuel hf page st hpage
    obtain ⟨fuel, rfl⟩ : ∃ f, fuel = f + 1 := ⟨fuel - 1, by omega⟩
    obtain ⟨items, hok, hne⟩ := hfetch page
    have hb : budgetStop (some b) start_page page = true := by
      simp only [budgetStop, decide_eq_true_eq]
      omega
    simp only [mainLoop, hok]
    rw [if_neg hne, if_pos hb]
    refine ⟨?_, rfl⟩
    show [page] = List.map (fun j : Nat => page + (j : Int)) (List.range 1)
    rw [show List.range 1 = [0] from rfl, List.map_singleton]
    rw [show page + ((0 : Nat) : Int) = page by push_cast; ring]

  | succ k ih =>
    intro fuel hf page st hpage
    obtain ⟨fuel, rfl⟩ : ∃ f, fuel = f + 1 := ⟨fuel - 1, by omega⟩
    obtain ⟨items, hok, hne⟩ := hfetch page
    have hb : budgetStop (some b) start_page page = false := by
      simp only [budgetStop, decide_eq_false_iff_not]
      omega
    have hih := ih fuel (by omega) (page + 1) (processItems st items) (by omega)
    simp only [mainLoop, hok]
    rw [if_neg hne]
    rw [if_neg (by simp [hb])]
    refine ⟨?_, hih.2⟩
    show page :: (mainLoop fetch until_empty (some b) start_page fuel (page + 1)
        (processItems st items)).1 = _
    rw [hih.1]
    conv_rhs => rw [List.range_succ_eq_map, List.map_cons, List.map_map]
    congr 1
    · push_cast
      ring
    · apply List.map_congr_left
      intro j hj
      show (page + 1) + (j : Int) = page + ((j + 1 : Nat) : Int)
      push_cast
      ring

/-- Claim C6 (pagination budget): with the start page taken from the start
URL's `page` parameter (default 1) and a budget of `b ≥ 1` pages, a run with
no fetch error and no stop-on-empty stop fetches exactly the pages
`start, start+1, …, start+b-1` (the cursor moving by exactly 1 per page) and
then stops. -/
theorem pagination_budget (fetch : Int → FetchOutcome) (until_empty : Bool)
    (start_url : List Char) (b : Int) (fuel : Nat)
    (hb : 1 ≤ b) (hfuel : b.toNat ≤ fuel)
    (hfetch : ∀ q : Int, ∃ items, fetch q = .ok items
      ∧ ¬(items = [] ∧ until_empty = true)) :
    (main fetch start_url (some b) until_empty fuel).1
        = (List.range b.toNat).map
            (fun j : Nat => start_page_of start_url + (j : Int)) ∧
    (main fetch start_url (some b) until_empty fuel).2.2 = true := by
  have h := mainLoop_budget_aux fetch until_empty (start_page_of start_url) b hfetch
    (b.toNat - 1) fuel (by omega) (start_page_of start_url) initState (by omega)
  rw [show b.toNat - 1 + 1 = b.toNat by omega] at h
  exact h

def startUrlW : List Char := "https://e/x?page=3".data

theorem pagination_budget_witness :
    1 ≤ (4 : Int) ∧ (4 : Int).toNat ≤ 4 ∧
    (main (fun _ => FetchOutcome.ok []) startUrlW (some 4) false 4).1 = [3, 4, 5, 6] ∧
    (main (fun _ => FetchOutcome.ok []) startUrlW (some 4) false 4).2.2 = true := by
  have h := pagination_budget (fun _ => FetchOutcome.ok []) false startUrlW 4 4
    (by decide) (by decide) (fun q => ⟨[], rfl, by simp⟩)
  refine ⟨by decide, by decide, ?_, h.2⟩
  rw [h.1]
  decide

end Scrape

namespace Scrape

/-! ### urlencode output facts -/

theorem joinSep_ne_nil {sep : Char} {parts : List (List Char)}
    (hne : parts ≠ []) (hp : ∀ p ∈ parts, p ≠ []) : joinSep sep parts ≠ [] := by
  match parts with
  | [] => exact absurd rfl hne
  | [p] => exact hp p (by simp)
  | p :: q :: rest =>
    show p ++ sep :: joinSep sep (q :: rest) ≠ []
    simp

theorem joinSep_mem {sep : Char} {parts : List (List Char)} {x : Char} :
    x ∈ joinSep sep parts → x = sep ∨ ∃ p ∈ parts, x ∈ p := by
  induction parts with
  | nil =>
    intro h
    simp [joinSep] at h
  | cons p rest ih =>
    cases rest with
    | nil =>
      intro h
      right
      exact ⟨p, by simp, by simpa [joinSep] using h⟩
    | cons q rest2 =>
      intro h
      rw [show joinSep sep (p :: q :: rest2) = p ++ sep :: joinSep sep (q :: rest2)
        from rfl] at h
      rcases List.mem_append.mp h with h | h
      · right
        exact ⟨p, by simp, h⟩
      · rcases List.mem_cons.mp h with h | h
        · exact Or.inl h
        · rcases ih h with h | ⟨p', hp', hx⟩
          · exact Or.inl h
          · right
            exact ⟨p', List.mem_cons.mpr (Or.inr hp'), hx⟩

theorem urlencodeL_no_hash (d : List (List Char × List (List Char))) :
    '#' ∉ urlencodeL d := by
  intro h
  unfold urlencodeL at h
  rcases joinSep_mem h with h | ⟨p, hp, hx⟩
  · exact absurd h (by decide)
  · rw [List.mem_flatMap] at hp
    obtain ⟨kv, hkv, hmem⟩ := hp
    rw [List.mem_map] at hmem
    obtain ⟨v, hv, rfl⟩ := hmem
    rcases List.mem_append.mp hx with hx | hx
    · exact absurd rfl
        (quote_plus_avoid hx (by decide) (by decide) (by decide) (by decide))
    · rcases List.mem_cons.mp hx with hx | hx
      · exact absurd hx (by decide)
      · exact absurd rfl
          (quote_plus_avoid hx (by decide) (by decide) (by decide) (by decide))

theorem dictSet_has_value (d : List (List Char × List (List Char)))
    (k : List Char) (v : List (List Char)) :
    ∃ kv ∈ dictSet d k v, kv.2 = v := by
  induction d with
  | nil => exact ⟨(k, v), by simp [dictSet], rfl⟩
  | cons kv0 rest ih =>
    obtain ⟨k0, v0⟩ := kv0
    by_cases h : k0 = k
    · refine ⟨(k0, v), ?_, rfl⟩
      show (k0, v) ∈ dictSet ((k0, v0) :: rest) k v
      rw [show dictSet ((k0, v0) :: rest) k v = (k0, v) :: rest from by
        simp [dictSet, h]]
      simp
    · obtain ⟨kv', hmem, hv⟩ := ih
      refine ⟨kv', ?_, hv⟩
      rw [show dictSet ((k0, v0) :: rest) k v = (k0, v0) :: dictSet rest k v from by
        simp [dictSet, h]]
      exact List.mem_cons.mpr (Or.inr hmem)

theorem urlencodeL_ne_nil {d : List (List Char × List (List Char))}
    (hd : ∃ kv ∈ d, kv.2 ≠ []) : urlencodeL d ≠ [] := by
  unfold urlencodeL
  apply joinSep_ne_nil
  · obtain ⟨kv, hkv, hne⟩ := hd
    intro h
    rw [List.flatMap_eq_nil_iff] at h
    have h2 := h kv hkv
    rw [List.map_eq_nil_iff] at h2
    exact hne h2
  · intro p hp
    rw [List.mem_flatMap] at hp
    obtain ⟨kv, _, hmem⟩ := hp
    rw [List.mem_map] at hmem
    obtain ⟨v, _, rfl⟩ := hmem
    simp

end Scrape

namespace Scrape

theorem urlparseL_def (l : List Char) : urlparseL l
    = ⟨(urlsplitL l).scheme, (urlsplitL l).netloc,
        (if (urlsplitL l).scheme ∈ uses_params then pathParams (urlsplitL l).path
          else ((urlsplitL l).path, [])).1,
        (if (urlsplitL l).scheme ∈ uses_params then pathParams (urlsplitL l).path
          else ((urlsplitL l).path, [])).2,
        (urlsplitL l).query, (urlsplitL l).frag⟩ := rfl

set_option maxHeartbeats 4000000

/-- Claim C10 (page-parameter rewrite frame property): rewriting the page
parameter to `n` preserves the URL's scheme, netloc, path, params and
fragment as `urlparse` sees them, preserves every other query parameter
(the parsed query minus `page` is unchanged), and the result's query always
maps `page` to `[str(n)]`, whether or not the original URL had one. -/
theorem set_page_param_frame (url : List Char) (n : Int) :
    (urlparseL (set_page_param url n)).scheme = (urlparseL url).scheme ∧
    (urlparseL (set_page_param url n)).netloc = (urlparseL url).netloc ∧
    (urlparseL (set_page_param url n)).path = (urlparseL url).path ∧
    (urlparseL (set_page_param url n)).params = (urlparseL url).params ∧
    (urlparseL (set_page_param url n)).frag = (urlparseL url).frag ∧
    lookupKey (parse_qsL (urlparseL (set_page_param url n)).query) pageKey
        = some [pyStr n] ∧
    removeKey (parse_qsL (urlparseL (set_page_param url n)).query) pageKey
        = removeKey (parse_qsL (urlparseL url).query) pageKey := by
  have hcomp : set_page_param url n
      = urlunsplitL ⟨(urlsplitL url).scheme, (urlsplitL url).netloc,
          recombineParams (urlparseL url).path (urlparseL url).params,
          urlencodeL (dictSet (parse_qsL (urlsplitL url).query) pageKey [pyStr n]),
          (urlsplitL url).frag⟩ := rfl
  have hwf := parse_qsL_wf (urlsplitL url).query
  have hQrt : parse_qsL (urlencodeL (dictSet (parse_qsL (urlsplitL url).query)
        pageKey [pyStr n]))
      = dictSet (parse_qsL (urlsplitL url).query) pageKey [pyStr n] :=
    parse_qs_urlencode (nodup_keys_dictSet hwf.1)
      (values_dictSet hwf.2 ⟨by simp, by
        intro x hx
        rw [List.mem_singleton] at hx
        subst hx
        exact pyStr_ne_nil n⟩)
  have hQne : urlencodeL (dictSet (parse_qsL (urlsplitL url).query)
      pageKey [pyStr n]) ≠ [] := by
    apply urlencodeL_ne_nil
    obtain ⟨kv, hm, hv⟩ := dictSet_has_value (parse_qsL (urlsplitL url).query)
      pageKey [pyStr n]
    exact ⟨kv, hm, by
      rw [hv]
      simp⟩
  have hsub : ∀ R : List Char,
      (R = (urlsplitL url).path ∨ (urlsplitL url).path = R ++ [';']) →
      ('?' ∉ R ∧ '#' ∉ R ∧ ((urlsplitL url).scheme = [] → firstColonDirty R) ∧
        ((urlsplitL url).netloc ≠ [] → R = [] ∨ R.take 1 = ['/'])) := by
    intro R hcase
    rcases hcase with rfl | heq
    · exact ⟨urlsplit_path_no_q url, urlsplit_path_no_f url,
        urlsplit_dirty_fact url, urlsplit_slash_fact url⟩
    · refine ⟨?_, ?_, ?_, ?_⟩
      · intro hx
        exact urlsplit_path_no_q url (by
          rw [heq]
          exact List.mem_append.mpr (Or.inl hx))
      · intro hx
        exact urlsplit_path_no_f url (by
          rw [heq]
          exact List.mem_append.mpr (Or.inl hx))
      · intro hs
        exact firstColonDirty_prefix (urlsplit_dirty_fact url hs) heq
      · intro hnl
        rcases urlsplit_slash_fact url hnl with h | h
        · rw [heq] at h
          simp at h
        · cases R with
          | nil => exact Or.inl rfl
          | cons c t =>
            right
            rw [heq] at h
            simp only [List.cons_append, List.take_succ_cons, List.take_zero] at h ⊢
            exact h
  have hstep : ∀ R : List Char,
      (R = (urlsplitL url).path ∨ (urlsplitL url).path = R ++ [';']) →
      urlsplitL (urlunsplitL ⟨(urlsplitL url).scheme, (urlsplitL url).netloc, R,
          urlencodeL (dictSet (parse_qsL (urlsplitL url).query) pageKey [pyStr n]),
          (urlsplitL url).frag⟩)
        = ⟨(urlsplitL url).scheme, (urlsplitL url).netloc, R,
            urlencodeL (dictSet (parse_qsL (urlsplitL url).query) pageKey [pyStr n]),
            (urlsplitL url).frag⟩ := by
    intro R hcase
    obtain ⟨h1, h2, h3, h4⟩ := hsub R hcase
    exact urlunsplit_roundtrip (urlsplit_scheme_fact url) h3
      (urlsplit_netloc_fact url) h1 h2 hQne (urlencodeL_no_hash _) h4
  have hcase : recombineParams (urlparseL url).path (urlparseL url).params
        = (urlsplitL url).path
      ∨ (urlsplitL url).path
        = recombineParams (urlparseL url).path (urlparseL url).params ++ [';'] := by
    simp only [urlparseL_def]
    by_cases hmem : (urlsplitL url).scheme ∈ uses_params
    · simp only [hmem, ite_true]
      rcases pathParams_recombine (urlsplitL url).path with h | ⟨h1, h2⟩
      · exact Or.inl h
      · right
        rw [h1]
        rw [show recombineParams (pathParams (urlsplitL url).path).1 []
            = (pathParams (urlsplitL url).path).1 from by simp [recombineParams]]
        exact h2
    · simp only [hmem, ite_false]
      left
      simp [recombineParams]
  have hsplit : urlsplitL (set_page_param url n)
      = ⟨(urlsplitL url).scheme, (urlsplitL url).netloc,
          recombineParams (urlparseL url).path (urlparseL url).params,
          urlencodeL (dictSet (parse_qsL (urlsplitL url).query) pageKey [pyStr n]),
          (urlsplitL url).frag⟩ := by
    rw [hcomp]
    exact hstep _ hcase
  refine ⟨?_, ?_, ?_, ?_, ?_, ?_, ?_⟩
  · simp only [urlparseL_def, hsplit]
  · simp only [urlparseL_def, hsplit]
  · simp only [urlparseL_def, hsplit]
    by_cases hmem : (urlsplitL url).scheme ∈ uses_params
    · simp only [hmem, ite_true]
      rw [pathParams_stable]
    · simp only [hmem, ite_false]
      simp [recombineParams]
  · simp only [urlparseL_def, hsplit]
    by_cases hmem : (urlsplitL url).scheme ∈ uses_params
    · simp only [hmem, ite_true]
      rw [pathParams_stable]
    · simp only [hmem, ite_false]
  · simp only [urlparseL_def, hsplit]
  · simp only [urlparseL_def, hsplit]
    rw [hQrt]
    exact lookupKey_dictSet _ _ _
  · simp only [urlparseL_def, hsplit]
    rw [hQrt, removeKey_dictSet]

set_option maxHeartbeats 200000

end Scrape
